import Mathlib

/-!
# Verification of the LuminaDB DDL round-trip engine

A shallow embedding of `luminadb/query_builder/table_creation.py`: the DDL
generator (`extract_table_creations` and the `TableCreationExtractor`
pipeline) and the DDL parser (`basic_extract`, `extract_table`), together
with models of the collaborators the module imports (`Column`,
`filter_extraction`, `_SQLITETYPES`, `DEFAULT_MAPPINGS`, `SQL_ACTIONS`),
which are not part of the sources under verification and are therefore
modelled from the specification.

Python strings are embedded as `List Char` (`Str`); the Python `shlex`
tokenizer (non-POSIX mode, as the module uses it) is embedded as an explicit
character-level state machine; Python dictionaries are embedded as ordered
association lists with replace-in-place update, matching insertion-order
semantics; fallible code returns `Except PyErr`.
-/

set_option maxRecDepth 10000

namespace LuminaDB

/-- Python strings, embedded as lists of characters. -/
abbrev Str := List Char

/-- Coerce a Lean string literal to the string type of the embedding. -/
def str (s : String) : Str := s.data

/-- Python exceptions that the embedded code can raise. -/
inductive PyErr where
  | valueError (msg : Str)
  | indexError
  | keyError
  deriving Repr, DecidableEq

/-- A Python literal value usable as a column default (string or int). -/
inductive PyLit where
  | s (v : Str)
  | i (n : Int)
  deriving Repr, DecidableEq

/-- Python truthiness of a literal: `""` and `0` are falsy. -/
def PyLit.truthy : PyLit → Bool
  | .s v => !v.isEmpty
  | .i n => n != 0

/-- Python truthiness of an optional string (`None` and `""` are falsy). -/
def pyTruthy : Option Str → Bool
  | none => false
  | some v => !v.isEmpty

/-- Python `repr` for the literals we model: strings are wrapped in single
quotes (faithful for strings containing no quote or backslash, the only ones
the generator claims cover), ints print as decimal. -/
def pyRepr : PyLit → Str
  | .s v => Char.ofNat 39 :: v ++ [Char.ofNat 39]
  | .i n => str (toString n)

/-- Python `s.lower()` on the embedded strings. -/
def pyLower (s : Str) : Str := s.map Char.toLower

/-- Python slice `s[1:-1]`: drop the first and last character. -/
def slice1m1 (s : Str) : Str := (s.drop 1).dropLast

/-- Modelled from the spec: the Column Descriptor class
(`luminadb/column.py`, not under `src/`).  Fields follow §3 of the spec and
the positional order used by the `Column(*upheld_column)` call in
`extract_table`: name, type, foreign flag, raw source reference (`"table/column"`),
primary flag, unique flag, nullable flag, default literal, then the
referential actions and the autoincrement flag. -/
structure Column where
  name : Str
  type_ : Str
  foreign : Bool := false
  raw_source : Option Str := none
  primary : Bool := false
  unique : Bool := false
  nullable : Bool := true
  default : Option PyLit := none
  on_delete : Option Str := none
  on_update : Option Str := none
  auto_increment : Bool := false
  deriving Repr, DecidableEq

/-- Modelled from the spec: `Column.source` — the table part of the
`"table/column"` raw source reference. -/
def Column.source (c : Column) : Str :=
  ((c.raw_source).getD []).takeWhile (· ≠ '/')

/-- Modelled from the spec: `Column.source_column` — the column part of the
`"table/column"` raw source reference. -/
def Column.source_column (c : Column) : Str :=
  (((c.raw_source).getD []).dropWhile (· ≠ '/')).drop 1

/-- Modelled from the spec: `_SQLITETYPES` (`luminadb/locals.py`, not under
`src/`): the SQLite storage type keywords recognised by the parser. -/
def SQLITETYPES : List Str :=
  [str "null", str "integer", str "real", str "text", str "blob"]

/-- Modelled from the spec: `DEFAULT_MAPPINGS`
(`luminadb/query_builder/utils.py`, not under `src/`): the fixed default
logical-type → dialect-type mapping (§6 of the spec; the claims do not
depend on its exact entries). -/
def DEFAULT_MAPPINGS : List (Str × Str) :=
  [(str "string", str "text"), (str "int", str "integer"),
   (str "integer", str "integer"), (str "float", str "real"),
   (str "blob", str "blob")]

/-- Modelled from the spec: `SQL_ACTIONS`
(`luminadb/query_builder/utils.py`, not under `src/`): the fixed table
mapping logical referential-action names to dialect keyword spellings;
unrecognised values pass through unchanged (§6 of the spec). -/
def SQL_ACTIONS : List (Str × Str) :=
  [(str "restrict", str "restrict"), (str "cascade", str "cascade"),
   (str "set_null", str "set null"), (str "set_default", str "set default"),
   (str "no_action", str "no action")]

/-- Lookup in an ordered association list (Python `dict` read). -/
def alGet? {α : Type} (d : List (Str × α)) (k : Str) : Option α :=
  match d with
  | [] => none
  | (k', v) :: rest => if k' = k then some v else alGet? rest k

/-- Python `dict.__setitem__`: replace in place (keeping the original
insertion position) if the key is present, else append. -/
def alSet {α : Type} (d : List (Str × α)) (k : Str) (v : α) : List (Str × α) :=
  match d with
  | [] => [(k, v)]
  | (k', v') :: rest =>
      if k' = k then (k', v) :: rest else (k', v') :: alSet rest k v

/-- Python `dict.get(k, default)`. -/
def alGetD (d : List (Str × Str)) (k : Str) (dflt : Str) : Str :=
  (alGet? d k).getD dflt

/-- `_iterate_sql_action` from `table_creation.py`:
`SQL_ACTIONS.get(action, action)`; a `None` action renders as Python would
interpolate it. -/
def _iterate_sql_action (action : Option Str) : Str :=
  match action with
  | none => str "None"
  | some a => alGetD SQL_ACTIONS a a

/-- `_get_type_mappings` from `table_creation.py`: copy the default mapping
and `dict.update` it with the overrides of the caller. -/
def _get_type_mappings (type_mappings : Option (List (Str × Str))) :
    List (Str × Str) :=
  match type_mappings with
  | none => DEFAULT_MAPPINGS
  | some tm => tm.foldl (fun d kv => alSet d kv.1 kv.2) DEFAULT_MAPPINGS

/-- The type-resolution site of the generator (`table_creation.py` line 88):
`maps.get(column.type, column.type)`. -/
def resolveType (maps : List (Str × Str)) (t : Str) : Str := alGetD maps t t

/-- `_process_column_constraints` from `table_creation.py`. -/
def _process_column_constraints (column : Column) (ctype : Str)
    (primary_count : Nat) : Str :=
  let constraints := str " " ++ column.name ++ str " " ++ ctype
  let constraints :=
    if !column.nullable then constraints ++ str " not null" else constraints
  let constraints :=
    if column.unique then constraints ++ str " unique" else constraints
  let constraints :=
    match column.default with
    | some d => if d.truthy then constraints ++ str " default " ++ pyRepr d
        else constraints
    | none => constraints
  if column.primary && primary_count == 1 then
    let constraints := constraints ++ str " primary key"
    if column.auto_increment then constraints ++ str " autoincrement"
    else constraints
  else constraints

/-- `_iterate_etbc_step1` from `table_creation.py`: one pass over the
columns, threading the accumulated string and the `primaries` / `foreigns`
lists (the Python code mutates the lists in place; the embedding threads
them). -/
def _iterate_etbc_step1 (columns : List Column) (string : Str)
    (primaries foreigns : List Column) (maps : List (Str × Str))
    (primary_count : Nat) : Str × List Column × List Column :=
  match columns with
  | [] => (string, primaries, foreigns)
  | column :: rest =>
      let ctype := resolveType maps column.type_
      let string := string ++ _process_column_constraints column ctype primary_count
      let foreigns :=
        if pyTruthy column.raw_source then foreigns ++ [column] else foreigns
      let primaries :=
        if column.primary && !(primary_count == 1) then primaries ++ [column]
        else primaries
      let string := string ++ str ","
      _iterate_etbc_step1 rest string primaries foreigns maps primary_count

/-- `TableCreationExtractor.add_primary_keys`: the table-level
`primary key (...)` clause. -/
def add_primary_keys (primaries : List Column) : Str :=
  if primaries.isEmpty then []
  else
    str " primary key (" ++
      (List.intercalate (str ", ") (primaries.map Column.name)) ++ str "),"

/-- The clause `TableCreationExtractor.add_foreign_keys` emits for one
column. -/
def foreignClause (column : Column) : Str :=
  str " foreign key (" ++ column.name ++ str ") references " ++
    column.source ++ str " (" ++ column.source_column ++
    str ") on delete " ++ _iterate_sql_action column.on_delete ++
    str " on update " ++ _iterate_sql_action column.on_update ++ str ","

/-- `TableCreationExtractor.add_foreign_keys`: append one clause per
tracked foreign column. -/
def add_foreign_keys (foreigns : List Column) : Str :=
  (foreigns.map foreignClause).flatten

/-- The string `TableCreationExtractor.extract` builds before its final
`[1:-1]` strip: `process_columns`, then `add_primary_keys`, then
`add_foreign_keys`. -/
def extractorString (columns : List Column)
    (type_mappings : Option (List (Str × Str))) : Str :=
  let maps := _get_type_mappings type_mappings
  let primary_count := (columns.filter (·.primary)).length
  let (s, primaries, foreigns) :=
    _iterate_etbc_step1 columns [] [] [] maps primary_count
  s ++ add_primary_keys primaries ++ add_foreign_keys foreigns

/-- `extract_table_creations` from `table_creation.py`:
`TableCreationExtractor(columns, type_mappings).extract()`, whose last step
is the `self.string[1:-1]` strip. -/
def extract_table_creations (columns : List Column)
    (type_mappings : Option (List (Str × Str)) := none) : Str :=
  slice1m1 (extractorString columns type_mappings)

/-! ## The `shlex` tokenizer

`basic_extract` and `extract_table` tokenize with the Python
`shlex.shlex(s)` in its default (non-POSIX) mode: whitespace separates
tokens; a token is a maximal run of word characters (alphanumerics and
underscore) into which quote characters are absorbed verbatim; a quote
character *starting* a token opens a quoted span that runs to the matching
quote and keeps both quotes; any other character is a one-character token;
an unclosed quote raises `ValueError`.  The embedding is a character-level
state machine. -/

/-- A shlex word character: alphanumeric or underscore. -/
def isWordChar (c : Char) : Bool := c.isAlphanum || c == '_'

/-- A shlex quote character. -/
def isQuoteChar (c : Char) : Bool := c == Char.ofNat 39 || c == '"'

/-- Shlex whitespace. -/
def isWs (c : Char) : Bool := c == ' ' || c == '\t' || c == '\r' || c == '\n'

/-- State of the shlex machine: between tokens, inside a word (accumulated
characters held in reverse), or inside a quoted span opened by the given
quote character. -/
inductive LexState where
  | ws
  | word (acc : Str)
  | quoted (q : Char) (acc : Str)
  deriving Repr, DecidableEq

/-- One shlex step: consume a character, emit the tokens it completes. -/
def lexStep (st : LexState) (c : Char) : LexState × List Str :=
  match st with
  | .ws =>
      if isWs c then (.ws, [])
      else if isWordChar c then (.word [c], [])
      else if isQuoteChar c then (.quoted c [c], [])
      else (.ws, [[c]])
  | .word acc =>
      if isWs c then (.ws, [acc.reverse])
      else if isWordChar c || isQuoteChar c then (.word (c :: acc), [])
      else (.ws, [acc.reverse, [c]])
  | .quoted q acc =>
      if c == q then (.ws, [(c :: acc).reverse])
      else (.quoted q (c :: acc), [])

/-- Run the shlex machine over a string, collecting emitted tokens. -/
def lexRun (st : LexState) : Str → LexState × List Str
  | [] => (st, [])
  | c :: rest =>
      let (st', ts) := lexStep st c
      let (st'', ts') := lexRun st' rest
      (st'', ts ++ ts')

/-- Flush the machine at end of input: a pending word is emitted, a pending
quoted span is the Python error for a missing closing quotation. -/
def finishLex : LexState → Option (List Str)
  | .ws => some []
  | .word acc => some [acc.reverse]
  | .quoted _ _ => none

/-- `list(shlex(s))` as the module uses it: the full token list, or `none`
for an unclosed quote. -/
def shlexTokens (s : Str) : Option (List Str) :=
  let (st, ts) := lexRun .ws s
  (finishLex st).map (ts ++ ·)

/-- Python `s.split(",")` (note `"".split(",") == [""]`). -/
def splitComma : Str → List Str
  | [] => [[]]
  | c :: rest =>
      if c = ',' then [] :: splitComma rest
      else
        match splitComma rest with
        | h :: t => (c :: h) :: t
        | [] => [[c]]

/-- Python `s[s.find("(") + 1 : -1]`, the body-extraction slice used by
both `basic_extract` and `extract_table` (`find` returns `-1` when absent,
making the slice start at 0). -/
def innerBody (s : Str) : Str :=
  match s.findIdx? (· == '(') with
  | some i => (s.drop (i + 1)).dropLast
  | none => s.dropLast

/-! ## The lexer / paren-wrapper -/

/-- The placeholder key `":wrapN"`. -/
def wrapKey (n : Nat) : Str := str ":wrap" ++ str (toString n)

/-- Collect the tokens of a parenthesized group up to and including the
close paren matching an already-consumed open paren (nesting tracked);
returns the tokens of the group and the remaining tokens.  Fueled by the token
count, which always suffices. -/
def collectGroup : Nat → List Str → Nat → List Str × List Str
  | 0, toks, _ => ([], toks)
  | _ + 1, [], _ => ([], [])
  | fuel + 1, t :: rest, depth =>
      if t = str "(" then
        let (g, r) := collectGroup fuel rest (depth + 1)
        (t :: g, r)
      else if t = str ")" then
        if depth ≤ 1 then ([t], rest)
        else
          let (g, r) := collectGroup fuel rest (depth - 1)
          (t :: g, r)
      else
        let (g, r) := collectGroup fuel rest depth
        (t :: g, r)

/-- Replace every top-level parenthesized token group by a `":wrapN"`
placeholder, recording the text of the group (its tokens joined back together)
under that key. -/
def wrapToks : Nat → List Str → Nat → List Str × List (Str × Str)
  | 0, toks, _ => (toks, [])
  | _ + 1, [], _ => ([], [])
  | fuel + 1, t :: rest, n =>
      if t = str "(" then
        let (g, r) := collectGroup (fuel + 1) rest 1
        let key := wrapKey n
        let (out, m) := wrapToks fuel r (n + 1)
        (key :: out, (key, (str "(" :: g).flatten) :: m)
      else
        let (out, m) := wrapToks fuel rest n
        (t :: out, m)

/-- Modelled from the spec: `filter_extraction`
(`luminadb/query_builder/utils.py`, not under `src/`), the Lexer /
Paren-Wrapper of §4.1: given a DDL fragment and its shlex token list, it
returns (a) the wrap placeholder keys in order of first appearance, (b) a
mapping from placeholder key to the text of the wrapped span, and (c) the token
stream with each parenthesized span replaced by its placeholder, re-joined
into a string.  `extract_table` re-tokenizes (c) and splits it on commas,
and indexes (b) with `":wrapN"` keys, which fixes this shape. -/
def filter_extraction (_data : Str) (shlexed : List Str) :
    List Str × List (Str × Str) × Str :=
  let (out, m) := wrapToks shlexed.length shlexed 0
  (m.map (·.1), m, List.intercalate (str " ") out)

/-! ## The DDL parser: `basic_extract` (Phase 1) -/

/-- The row `basic_extract` stores per column: the Python list
`[name, type, foreign, source, primary, unique, nullable, default]`, plus
the referential-action tokens `extract_table` later appends to it. -/
structure UpheldRow where
  name : Str
  type_ : Str
  foreign : Bool
  source : Option Str
  primary : Bool
  unique : Bool
  nullable : Bool
  default : Option Str
  extras : List Str := []
  deriving Repr, DecidableEq

/-- The ordered dictionary `upheld`. -/
abbrev Upheld := List (Str × UpheldRow)

/-- Python list indexing with negative-index wraparound and `IndexError`. -/
def pyGet (l : List Str) (i : Int) : Except PyErr Str :=
  let j := if i < 0 then i + l.length else i
  match l.get? j.toNat with
  | some v => if 0 ≤ j then .ok v else .error .indexError
  | none => .error .indexError

/-- Python string indexing `s[i]` (nonnegative indices suffice here). -/
def pyGetChar (s : Str) (i : Nat) : Except PyErr Char :=
  match s.get? i with
  | some c => .ok c
  | none => .error .indexError

/-- Python `list.index(v)` for an element known to occur (first index). -/
def idxOfVal (l : List Str) (v : Str) : Nat :=
  (l.findIdx? (· = v)).getD 0

/-- `list(shlex(s))`, raising a `ValueError` on an unclosed quote. -/
def shlexE (s : Str) : Except PyErr (List Str) :=
  match shlexTokens s with
  | some ts => .ok ts
  | none => .error (.valueError (str "No closing quotation"))

/-- The per-token scan state inside the fragment loop of `basic_extract`. -/
structure P1State where
  defaults : Option Str
  primary : Bool
  foreign : Bool
  notnull : Bool
  unique : Bool
  sources : Option (Str × Str)
  deriving Repr, DecidableEq

/-- One iteration of the `for token in base_columns` loop of `basic_extract`
(`table_creation.py` lines 165–185).  Note the bugs carried over verbatim
from the source: the default marker matched is the token `"defaults"`, and
the quote-strip condition (first char differs from a double quote, OR
first char differs from a single quote) is a tautology, so the verbatim branch is always taken. -/
def basicTokenStep (base_columns : List Str) (st : P1State) (token : Str) :
    Except PyErr P1State := do
  let tl := pyLower token
  let st ←
    if tl = str "defaults" then do
      let d ← pyGet base_columns (idxOfVal base_columns token + 1)
      let c0 ← pyGetChar d 0
      let d := if c0 ≠ '"' ∨ c0 ≠ Char.ofNat 39 then d else slice1m1 d
      pure { st with defaults := some d }
    else pure st
  let st := if tl = str "primary" then { st with primary := true } else st
  let st := if tl = str "foreign" then { st with foreign := true } else st
  let st ←
    if tl = str "reference" then do
      let tb_index := idxOfVal base_columns token + 1
      let tb_col := tb_index + 1
      let s0 ← pyGet base_columns tb_index
      let s1 ← pyGet base_columns tb_col
      pure { st with sources := some (s0, slice1m1 s1) }
    else pure st
  let st ←
    if tl = str "null" then do
      let prev ← pyGet base_columns (Int.ofNat (idxOfVal base_columns token) - 1)
      pure { st with notnull := pyLower prev = str "not" }
    else pure st
  let st := if tl = str "unique" then { st with unique := true } else st
  pure st

/-- The row built at the end of one fragment iteration
(`table_creation.py` lines 186–195): note `defaults if defaults else None`
turns an empty-string default into `None`. -/
def rowOfState (name type_ : Str) (st : P1State) : UpheldRow :=
  { name := name
    type_ := type_
    foreign := st.foreign
    source := st.sources.map (fun s => s.1 ++ str "/" ++ s.2)
    primary := st.primary
    unique := st.unique
    nullable := !st.notnull
    default := match st.defaults with
      | some d => if d.isEmpty then none else some d
      | none => none }

/-- The fragment loop of `basic_extract`: `break` (returning what was collected
so far) as soon as the second token of a fragment is not a recognised SQLite
type. -/
def basicLoop : List Str → Upheld → Except PyErr Upheld
  | [], upheld => .ok upheld
  | constr :: rest, upheld => do
      let base_columns ← shlexE constr
      let t1 ← pyGet base_columns 1
      if ¬ SQLITETYPES.contains t1 then .ok upheld
      else do
        let name ← pyGet base_columns 0
        if base_columns.length = 2 then
          basicLoop rest (alSet upheld name
            { name := name, type_ := t1, foreign := false, source := none,
              primary := false, unique := false, nullable := true,
              default := none })
        else do
          let st ← base_columns.foldlM (basicTokenStep base_columns)
            { defaults := none, primary := false, foreign := false,
              notnull := false, unique := false, sources := none }
          basicLoop rest (alSet upheld name (rowOfState name t1 st))

/-- `basic_extract` from `table_creation.py`: Phase 1 of the parser.  The
returned `cols` list is always empty (the append in the 2-token case is
commented out in the source). -/
def basic_extract (table_creation : Str) :
    Except PyErr (List Column × Upheld) := do
  let data := innerBody table_creation
  let upheld ← basicLoop (splitComma data) []
  .ok ([], upheld)

/-! ## The DDL parser: `extract_table` (Phase 2) -/

/-- Strip one layer of surrounding quotes from a parsed column name, as the
table-level primary-key branch does
(`name[1:-1] if name.startswith(...) else name`). -/
def stripQuote (name : Str) : Str :=
  if [Char.ofNat 39].isPrefixOf name ∨ (str "\"").isPrefixOf name then
    slice1m1 name
  else name

/-- Python `set(a) == set(b)` on name lists. -/
def sameSet (a b : List Str) : Bool :=
  a.all (b.contains ·) && b.all (a.contains ·)

/-- Dictionary read with a Python `KeyError`. -/
def alGetE {α : Type} (d : List (Str × α)) (k : Str) : Except PyErr α :=
  match alGet? d k with
  | some v => .ok v
  | none => .error .keyError

/-- In-place mutation `upheld[k] := f (upheld[k])`, raising `KeyError` when
the key is absent. -/
def alModify (d : Upheld) (k : Str) (f : UpheldRow → UpheldRow) :
    Except PyErr Upheld :=
  match alGet? d k with
  | some v => .ok (alSet d k (f v))
  | none => .error .keyError

/-- `"".join(toks[i : i + 2])` — the `str_wrap` computation. -/
def strWrapAt (toks : List Str) (i : Nat) : Str :=
  ((toks.drop i).take 2).flatten

/-- Resolve `str_wrap` through `paren_wrap` when it is a placeholder
(`wrap = paren_wrap[str_wrap] if str_wrap.startswith(":wrap") else
str_wrap`). -/
def resolveWrap (paren_wrap : List (Str × Str)) (str_wrap : Str) :
    Except PyErr Str :=
  if (str ":wrap").isPrefixOf str_wrap then alGetE paren_wrap str_wrap
  else .ok str_wrap

/-- The token scan of one Phase-2 fragment (`table_creation.py` lines
213–266), an indexed walk with the absolute-offset accesses of the source; the
`primary` branch ends the scan of the fragment (`break`), the `foreign` branch
does not. -/
def phase2Go (toks : List Str) (paren_wrap : List (Str × Str)) :
    Nat → Nat → Upheld → Except PyErr Upheld
  | 0, _, upheld => .ok upheld
  | fuel + 1, i, upheld =>
      match toks.get? i with
      | none => .ok upheld
      | some token =>
          let tl := pyLower token
          if tl = str "primary" then do
            let next_ := i + 2
            let wrap ← resolveWrap paren_wrap (strWrapAt toks next_)
            let names :=
              if (str "(").isPrefixOf wrap then splitComma (slice1m1 wrap)
              else splitComma wrap
            let inline_primaries :=
              (upheld.filter (fun kv => kv.2.primary)).map (·.1)
            let table_level := names.map stripQuote
            if ¬ inline_primaries.isEmpty then
              if ¬ sameSet inline_primaries table_level then
                .error (.valueError (str
                  "Conflicting primary key definitions: inline and table-level differ"))
              else .ok upheld
            else do
              let upheld ← names.foldlM
                (fun u name =>
                  alModify u (stripQuote name) (fun r => { r with primary := true }))
                upheld
              .ok upheld
          else if tl = str "foreign" then do
            let next_ := i + 2
            let wrap ← resolveWrap paren_wrap (strWrapAt toks next_)
            let name := if (str "(").isPrefixOf wrap then slice1m1 wrap else wrap
            let tb_index := next_ + 3
            let tb_col := tb_index + 1
            let t ← pyGet toks (Int.ofNat (tb_col + 1))
            let scw ← alGetE paren_wrap (str ":" ++ t)
            let source_col_str := slice1m1 scw
            let tref ← pyGet toks (Int.ofNat tb_index)
            let sources := tref ++ str "/" ++ source_col_str
            let upheld ← alModify upheld name (fun r => { r with source := some sources })
            let upheld ← alModify upheld name (fun r => { r with foreign := true })
            let upheld ←
              if toks.contains (str "delete") then do
                let a ← pyGet toks (Int.ofNat (idxOfVal toks (str "delete") + 1))
                alModify upheld name (fun r => { r with extras := r.extras ++ [a] })
              else pure upheld
            let upheld ←
              if toks.contains (str "update") then do
                let a ← pyGet toks (Int.ofNat (idxOfVal toks (str "update") + 1))
                alModify upheld name (fun r => { r with extras := r.extras ++ [a] })
              else pure upheld
            phase2Go toks paren_wrap fuel (i + 1) upheld
          else phase2Go toks paren_wrap fuel (i + 1) upheld

/-- The Phase-2 outer loop over comma-split fragments of the wrapped body. -/
def phase2Frags (paren_wrap : List (Str × Str)) :
    List Str → Upheld → Except PyErr Upheld
  | [], upheld => .ok upheld
  | f :: rest, upheld => do
      let column_shlexed ← shlexE f
      let upheld ← phase2Go column_shlexed paren_wrap
        column_shlexed.length 0 upheld
      phase2Frags paren_wrap rest upheld

/-- The final `Column(*upheld_column)` call: the eight stored fields in
positional order, then any appended referential-action tokens landing in
the `on_delete` / `on_update` positions. -/
def mkColumnOfRow (r : UpheldRow) : Column :=
  { name := r.name
    type_ := r.type_
    foreign := r.foreign
    raw_source := r.source
    primary := r.primary
    unique := r.unique
    nullable := r.nullable
    default := r.default.map PyLit.s
    on_delete := r.extras.get? 0
    on_update := r.extras.get? 1 }

/-- `extract_table` from `table_creation.py`: Phase 1, then the
lexer/paren-wrapper, then Phase 2, then assembly of one `Column` per
`upheld` entry in insertion order. -/
def extract_table (table_creation : Str) : Except PyErr (List Column) := do
  let data := innerBody table_creation
  let (cols, upheld) ← basic_extract table_creation
  let shlexed ← shlexE data
  let (_, paren_wrap, filtered) := filter_extraction data shlexed
  let upheld ← phase2Frags paren_wrap (splitComma filtered) upheld
  .ok (cols ++ upheld.map (fun kv => mkColumnOfRow kv.2))

/-! ## Auxiliary definitions used by the claim statements -/

/-- Modelled from the spec: an integer-typed column for the autoincrement
validity rule (§3: the resolved type must be an integer type). -/
def isIntegerType (t : Str) : Bool := t = str "integer" || t = str "int"

/-- Modelled from the spec: the validating `Column` constructor
(`luminadb/column.py`, not under `src/`).  Per §3 and §7 of the spec,
constructing a descriptor with `auto_increment=true` fails with a
construction error unless the column is marked primary (the sole-primary
requirement, as far as a single descriptor can check it) and its type is an
integer type; the autoincrement test in
`src/tests/database/table_api/test_autoincrement.py` pins the non-integer
case to a `ValueError` raised at construction time. -/
def Column.make (name type_ : Str) (foreign : Bool := false)
    (raw_source : Option Str := none) (primary : Bool := false)
    (unique : Bool := false) (nullable : Bool := true)
    (default : Option PyLit := none) (on_delete : Option Str := none)
    (on_update : Option Str := none) (auto_increment : Bool := false) :
    Except PyErr Column :=
  if auto_increment && !(primary && isIntegerType type_) then
    .error (.valueError (str "auto_increment requires a sole integer primary key column"))
  else
    .ok { name := name, type_ := type_, foreign := foreign,
          raw_source := raw_source, primary := primary, unique := unique,
          nullable := nullable, default := default, on_delete := on_delete,
          on_update := on_update, auto_increment := auto_increment }

/-- Count the adjacent token pairs `primary key` in a token list: the
number of primary-key clauses (inline or table-level) a DDL string
contains, read off its shlex tokenization. -/
def countPK : List Str → Nat
  | [] => 0
  | [_] => 0
  | a :: b :: rest =>
      (if a = str "primary" ∧ b = str "key" then 1 else 0) + countPK (b :: rest)

/-- The column-definitions section of the generated DDL: the concatenation
of the per-column fragments (each ending in a comma) that
`_iterate_etbc_step1` threads into the accumulator. -/
def columnFragments (columns : List Column) (maps : List (Str × Str))
    (primary_count : Nat) : Str :=
  (columns.map (fun c =>
    _process_column_constraints c (resolveType maps c.type_) primary_count ++
      str ",")).flatten

/-- The primary-flagged columns that `_iterate_etbc_step1` accumulates into
`primaries` (all of them when the table has other than exactly one). -/
def primariesOf (columns : List Column) (primary_count : Nat) : List Column :=
  columns.filter (fun c => c.primary && !(primary_count == 1))

/-- The columns with a truthy `raw_source`, which `_iterate_etbc_step1`
accumulates into `foreigns`. -/
def foreignsOf (columns : List Column) : List Column :=
  columns.filter (fun c => pyTruthy c.raw_source)

/-- A single-quote character, kept out of string literals. -/
def sq : Char := Char.ofNat 39

/-- Concrete input for C1: a valid descriptor list with exactly one primary
column (the canonical single-primary table). -/
def c1cols : List Column :=
  [{ name := str "id", type_ := str "integer", primary := true },
   { name := str "name", type_ := str "text" }]

/-- Concrete inputs for the C6 witness: a foreign-key column that is not
primary, inside a two-column table. -/
def c6col : Column :=
  { name := str "owner", type_ := str "integer",
    raw_source := some (str "users/id"), on_delete := some (str "cascade"),
    on_update := some (str "restrict") }

/-- The C6 witness table. -/
def c6cols : List Column :=
  [{ name := str "id", type_ := str "integer", primary := true }, c6col]

/-- Concrete input for C8: a column fragment with a quoted default behind
the `defaults` marker the parser matches. -/
def c8input : Str :=
  str "create table t (a text defaults " ++ [sq] ++ str "v" ++ [sq] ++ str ")"

/-- The row C8 actually records: the default keeps its surrounding
quotes. -/
def c8row : UpheldRow :=
  { name := str "a", type_ := str "text", foreign := false, source := none,
    primary := false, unique := false, nullable := true,
    default := some ([sq] ++ str "v" ++ [sq]) }

/-- Concrete override mapping for the C9 witness: one key colliding with
the default mapping, one fresh key. -/
def c9ov : List (Str × Str) :=
  [(str "integer", str "bigint"), (str "custom", str "jsonb")]

/-- Concrete valid input for the C2 witness: one primary column. -/
def c2cols : List Column :=
  [{ name := str "id", type_ := str "integer", primary := true },
   { name := str "label", type_ := str "text" }]

/-- Concrete input for C7: an inline primary key on `a` and a table-level
clause naming exactly `{a}` — the sets agree, so per the spec the clause is
redundant and parsing must succeed. -/
def c7input : Str :=
  str "create table t (a integer primary key, primary key (a))"

/-! ## Validity of descriptor lists

The universal claims about the generator and the round trip hold for
*valid* descriptor lists.  Validity (distinct identifier-like names that
are not dialect keywords, resolved types drawn from the recognised SQLite
types, string defaults, well-formed `table/column` references with
word-like referential actions) is what the spec presupposes of column
descriptors; all predicates are decidable so witnesses can be checked by
evaluation. -/

/-- The dialect keywords the parser scans for (lower-cased), which valid
identifiers must avoid. -/
def KEYWORDS : List Str :=
  [str "primary", str "foreign", str "unique", str "null", str "not",
   str "default", str "defaults", str "key", str "references",
   str "reference", str "on", str "delete", str "update",
   str "autoincrement"]

/-- An identifier-like string: nonempty, word characters only. -/
def IdentOk (s : Str) : Bool := !s.isEmpty && s.all isWordChar

/-- A valid column name: identifier-like and not a keyword. -/
def NameOk (s : Str) : Bool := IdentOk s && !(KEYWORDS.contains (pyLower s))

/-- A valid resolved column type: a recognised SQLite type that is not
also a scanned keyword (this excludes the storage class `null`). -/
def TypeOk (t : Str) : Bool :=
  SQLITETYPES.contains t && !(KEYWORDS.contains (pyLower t))

/-- Python `s.split(" ")`. -/
def splitSp : Str → List Str
  | [] => [[]]
  | c :: rest =>
      if c = ' ' then [] :: splitSp rest
      else
        match splitSp rest with
        | h :: t => (c :: h) :: t
        | [] => [[c]]

/-- A valid referential action: present, and its dialect rendering is one
or more space-separated valid identifier words (as all entries of
`SQL_ACTIONS` are). -/
def ActionOk (a : Option Str) : Bool :=
  match a with
  | none => false
  | some s => (splitSp (_iterate_sql_action (some s))).all NameOk

/-- A valid default: absent, or a string literal that is empty (falsy, so
never emitted) or identifier-like and not a keyword. -/
def DefaultOk : Option PyLit → Bool
  | none => true
  | some (.s v) => v.isEmpty || NameOk v
  | some (.i _) => false

/-- A valid foreign-key reference: absent, or a `table/column` pair of
valid identifiers together with valid referential actions. -/
def SourceOk (c : Column) : Bool :=
  match c.raw_source with
  | none => true
  | some rs =>
      rs = c.source ++ str "/" ++ c.source_column && NameOk c.source &&
        NameOk c.source_column && ActionOk c.on_delete && ActionOk c.on_update

/-- Validity of one column descriptor relative to the type mapping in
force. -/
def ColOk (maps : List (Str × Str)) (c : Column) : Bool :=
  NameOk c.name && TypeOk (resolveType maps c.type_) && DefaultOk c.default &&
    SourceOk c

/-- Validity of a descriptor list: every column valid, names distinct. -/
def ColsOk (maps : List (Str × Str)) (columns : List Column) : Bool :=
  columns.all (ColOk maps) && (columns.map (·.name)).Nodup

/-! ## Pieces: a shape language for generated strings

A generated DDL string is a concatenation of spaces, identifier words,
single punctuation characters and single-quoted literals.  Each piece
knows its text and the shlex tokens it contributes; a well-formedness
condition (no word or quoted literal directly after a word) makes
tokenization compositional. -/

/-- One lexical piece of a generated string. -/
inductive Piece where
  | sp
  | word (w : Str)
  | punct (c : Char)
  | quoted (v : Str)
  deriving Repr, DecidableEq

/-- The text of a piece. -/
def Piece.text : Piece → Str
  | .sp => [' ']
  | .word w => w
  | .punct c => [c]
  | .quoted v => sq :: v ++ [sq]

/-- The shlex tokens a piece contributes. -/
def Piece.toks : Piece → List Str
  | .sp => []
  | .word w => [w]
  | .punct c => [[c]]
  | .quoted v => [sq :: v ++ [sq]]

/-- Intrinsic well-formedness of one piece. -/
def Piece.ok : Piece → Bool
  | .sp => true
  | .word w => IdentOk w
  | .punct c => !isWs c && !isWordChar c && !isQuoteChar c
  | .quoted v => v.all (· ≠ sq)

/-- Whether a piece may directly follow a word (its first character must
not extend the word). -/
def Piece.startsClean : Piece → Bool
  | .sp => true
  | .word _ => false
  | .punct _ => true
  | .quoted _ => false

/-- Whether a piece list may directly follow a word piece: empty, or
opening with a clean-starting piece. -/
def startsCleanList : List Piece → Bool
  | [] => true
  | q :: _ => q.startsClean

/-- Well-formedness of a piece list. -/
def PiecesOk : List Piece → Bool
  | [] => true
  | p :: rest =>
      p.ok &&
        (match p, rest with
         | .word _, q :: _ => q.startsClean
         | _, _ => true) &&
      PiecesOk rest

/-- Whether a string is safe to place directly after a word token: empty,
or starting with a character that neither extends a word nor opens a
quote. -/
def headClean : Str → Bool
  | [] => true
  | c :: _ => !isWordChar c && !isQuoteChar c

/-- The concatenated text of a piece list. -/
def piecesText (ps : List Piece) : Str := (ps.map Piece.text).flatten

/-- The concatenated tokens of a piece list. -/
def piecesToks (ps : List Piece) : List Str := (ps.map Piece.toks).flatten

/-- The pieces of one generated column fragment without its separating
comma (the output of `_process_column_constraints`). -/
def colInnerPieces (c : Column) (ctype : Str) (pc : Nat) : List Piece :=
  [.sp, .word c.name, .sp, .word ctype] ++
  (if !c.nullable then [.sp, .word (str "not"), .sp, .word (str "null")]
   else []) ++
  (if c.unique then [.sp, .word (str "unique")] else []) ++
  (match c.default with
   | some (.s v) =>
       if (PyLit.s v).truthy then
         [.sp, .word (str "default"), .sp, .quoted v]
       else []
   | some (.i n) =>
       if (PyLit.i n).truthy then
         [.sp, .word (str "default"), .sp, .word (str (toString n))]
       else []
   | none => []) ++
  (if c.primary && pc == 1 then
     [.sp, .word (str "primary"), .sp, .word (str "key")] ++
       (if c.auto_increment then [.sp, .word (str "autoincrement")] else [])
   else [])

/-- The pieces of one generated column fragment (the inner fragment plus
the separating comma). -/
def colPieces (c : Column) (ctype : Str) (pc : Nat) : List Piece :=
  colInnerPieces c ctype pc ++ [.punct ',']

/-- The pieces of a comma-and-space separated name list (the argument of
the table-level primary-key clause). -/
def namesPieces : List Str → List Piece
  | [] => []
  | n :: rest =>
      .word n :: rest.flatMap (fun m => [.punct ',', .sp, .word m])

/-- The pieces of the table-level primary-key clause. -/
def pkPieces (names : List Str) : List Piece :=
  [.sp, .word (str "primary"), .sp, .word (str "key"), .sp, .punct '('] ++
    namesPieces names ++ [.punct ')', .punct ',']

/-- The pieces of a rendered referential action (one leading space per
word). -/
def actionPieces (a : Option Str) : List Piece :=
  (splitSp (_iterate_sql_action a)).flatMap (fun w => [.sp, .word w])

/-- The pieces of one generated foreign-key clause without its trailing
comma. -/
def fkInnerPieces (c : Column) : List Piece :=
  [.sp, .word (str "foreign"), .sp, .word (str "key"), .sp, .punct '(',
   .word c.name, .punct ')', .sp, .word (str "references"), .sp,
   .word c.source, .sp, .punct '(', .word c.source_column, .punct ')',
   .sp, .word (str "on"), .sp, .word (str "delete")] ++
  actionPieces c.on_delete ++
  [.sp, .word (str "on"), .sp, .word (str "update")] ++
  actionPieces c.on_update

/-- The pieces of one generated foreign-key clause. -/
def fkPieces (c : Column) : List Piece :=
  fkInnerPieces c ++ [.punct ',']

/-- The pieces of the whole extractor string. -/
def allPieces (columns : List Column) (maps : List (Str × Str))
    (pc : Nat) : List Piece :=
  columns.flatMap (fun c => colPieces c (resolveType maps c.type_) pc) ++
    (if (primariesOf columns pc).isEmpty then []
     else pkPieces ((primariesOf columns pc).map Column.name)) ++
    (foreignsOf columns).flatMap fkPieces

/-! ## Structural lemmas about the generator -/

theorem _iterate_etbc_step1_eq (columns : List Column) (s : Str)
    (p f : List Column) (maps : List (Str × Str)) (pc : Nat) :
    _iterate_etbc_step1 columns s p f maps pc =
      (s ++ columnFragments columns maps pc,
       p ++ primariesOf columns pc,
       f ++ foreignsOf columns) := by
  induction columns generalizing s p f with
  | nil => simp [_iterate_etbc_step1, columnFragments, primariesOf, foreignsOf]
  | cons c rest ih =>
      simp only [_iterate_etbc_step1, ih, columnFragments, primariesOf,
        foreignsOf, List.map_cons, List.filter_cons]
      by_cases hp : (c.primary && !(pc == 1)) = true <;>
        by_cases hf : pyTruthy c.raw_source = true <;>
          simp [hp, hf, List.append_assoc]

theorem extractorString_eq (columns : List Column)
    (tm : Option (List (Str × Str))) :
    extractorString columns tm =
      columnFragments columns (_get_type_mappings tm)
          ((columns.filter (·.primary)).length) ++
        add_primary_keys
          (primariesOf columns ((columns.filter (·.primary)).length)) ++
        add_foreign_keys (foreignsOf columns) := by
  simp [extractorString, _iterate_etbc_step1_eq]

/-! ## Association-list (Python dict) lemmas -/

theorem alGet?_alSet_self {α : Type} (d : List (Str × α)) (k : Str) (v : α) :
    alGet? (alSet d k v) k = some v := by
  induction d with
  | nil => simp [alGet?, alSet]
  | cons kv rest ih =>
      by_cases h : kv.1 = k <;> simp [alGet?, alSet, h, ih]

theorem alGet?_alSet_ne {α : Type} (d : List (Str × α)) {k k' : Str}
    (h : k ≠ k') (v : α) : alGet? (alSet d k v) k' = alGet? d k' := by
  induction d with
  | nil => simp [alGet?, alSet, h]
  | cons kv rest ih =>
      by_cases hk : kv.1 = k <;> simp [alGet?, alSet, hk, ih, h]

theorem alGet?_foldl_not_mem {α : Type} (l : List (Str × α))
    (d : List (Str × α)) (k : Str) (h : k ∉ l.map (·.1)) :
    alGet? (l.foldl (fun d kv => alSet d kv.1 kv.2) d) k = alGet? d k := by
  induction l generalizing d with
  | nil => simp
  | cons kv rest ih =>
      simp only [List.map_cons, List.mem_cons, not_or] at h
      simp only [List.foldl_cons]
      have hne : kv.1 ≠ k := fun he => h.1 he.symm
      rw [ih _ h.2, alGet?_alSet_ne _ hne]

theorem alGet?_merge {α : Type} (l : List (Str × α)) (d : List (Str × α))
    (k : Str) (h : (l.map (·.1)).Nodup) :
    alGet? (l.foldl (fun d kv => alSet d kv.1 kv.2) d) k =
      match alGet? l k with
      | some v => some v
      | none => alGet? d k := by
  induction l generalizing d with
  | nil => simp [alGet?]
  | cons kv rest ih =>
      simp only [List.map_cons, List.nodup_cons] at h
      simp only [List.foldl_cons]
      by_cases hk : kv.1 = k
      · subst hk
        rw [alGet?_foldl_not_mem _ _ _ h.1, alGet?_alSet_self]
        simp [alGet?]
      · rw [ih _ h.2]
        rcases hr : alGet? rest k <;>
          simp [alGet?, hk, hr, alGet?_alSet_ne _ hk]

/-! ## Lexer lemmas: tokenization of piece-structured strings -/

theorem isWs_false_of_isWordChar {c : Char} (h : isWordChar c = true) :
    isWs c = false := by
  cases hws : isWs c
  · rfl
  · exfalso
    have hws' : c = ' ' ∨ c = '\t' ∨ c = '\r' ∨ c = '\n' := by
      simpa [isWs, or_assoc] using hws
    rcases hws' with rfl | rfl | rfl | rfl <;> exact absurd h (by decide)

theorem isQuoteChar_false_of_isWordChar {c : Char} (h : isWordChar c = true) :
    isQuoteChar c = false := by
  cases hq : isQuoteChar c
  · rfl
  · exfalso
    have hq' : c = sq ∨ c = '"' := by simpa [isQuoteChar] using hq
    rcases hq' with rfl | rfl <;> exact absurd h (by decide)

theorem isWs_false_of_isQuoteChar {c : Char} (h : isQuoteChar c = true) :
    isWs c = false := by
  have h' : c = sq ∨ c = '"' := by simpa [isQuoteChar] using h
  rcases h' with rfl | rfl <;> decide

theorem isWordChar_false_of_isQuoteChar {c : Char} (h : isQuoteChar c = true) :
    isWordChar c = false := by
  have h' : c = sq ∨ c = '"' := by simpa [isQuoteChar] using h
  rcases h' with rfl | rfl <;> decide

theorem lexRun_append (st : LexState) (xs ys : Str) :
    lexRun st (xs ++ ys) =
      ((lexRun (lexRun st xs).1 ys).1,
       (lexRun st xs).2 ++ (lexRun (lexRun st xs).1 ys).2) := by
  induction xs generalizing st with
  | nil => simp [lexRun]
  | cons c rest ih =>
      simp only [List.cons_append, lexRun]
      rcases h1 : lexStep st c with ⟨st1, ts1⟩
      simp only [List.append_eq, ih st1, List.append_assoc]

theorem lexRun_word_chars (w : Str) (acc : Str)
    (hw : w.all isWordChar = true) :
    lexRun (.word acc) w = (.word (w.reverse ++ acc), []) := by
  induction w generalizing acc with
  | nil => simp [lexRun]
  | cons c rest ih =>
      simp only [List.all_cons, Bool.and_eq_true] at hw
      simp only [lexRun, lexStep, isWs_false_of_isWordChar hw.1, hw.1,
        Bool.true_or, if_true, Bool.false_eq_true, if_false, ih _ hw.2]
      simp

theorem lexRun_quoted_chars (v : Str) (q : Char) (acc : Str)
    (hv : v.all (· ≠ q) = true) :
    lexRun (.quoted q acc) v = (.quoted q (v.reverse ++ acc), []) := by
  induction v generalizing acc with
  | nil => simp [lexRun]
  | cons c rest ih =>
      simp only [List.all_cons, Bool.and_eq_true, decide_eq_true_eq] at hv
      have hne : (c == q) = false := by simp [hv.1]
      simp only [lexRun, lexStep, hne, Bool.false_eq_true, if_false,
        ih _ hv.2]
      simp

theorem shlexTokens_ws {d : Char} (s : Str) (h : isWs d = true) :
    shlexTokens (d :: s) = shlexTokens s := by
  simp [shlexTokens, lexRun, lexStep, h]

theorem shlexTokens_eq (s : Str) :
    shlexTokens s =
      (finishLex (lexRun .ws s).1).map ((lexRun .ws s).2 ++ ·) := by
  rcases h : lexRun .ws s with ⟨st, ts⟩
  simp [shlexTokens, h]

theorem shlexTokens_punct {c : Char} (s : Str) (h1 : isWs c = false)
    (h2 : isWordChar c = false) (h3 : isQuoteChar c = false) :
    shlexTokens (c :: s) = (shlexTokens s).map ([c] :: ·) := by
  simp only [shlexTokens, lexRun, lexStep, h1, h2, h3, Bool.false_eq_true,
    if_false]
  rcases h : lexRun .ws s with ⟨st, ts⟩
  cases finishLex st <;> simp [Option.map]

theorem lexRun_ws_word_pre (c : Char) (w' : Str) (s : Str)
    (hc : isWordChar c = true) (hw' : w'.all isWordChar = true) :
    lexRun .ws ((c :: w') ++ s) =
      lexRun (.word (w'.reverse ++ [c])) s := by
  have happ := lexRun_append (.word [c]) w' s
  rw [lexRun_word_chars w' [c] hw'] at happ
  simp only [List.cons_append, lexRun, lexStep,
    isWs_false_of_isWordChar hc, hc, Bool.true_or, if_true,
    Bool.false_eq_true, if_false, List.append_eq, happ]
  simp

theorem shlexTokens_word (w : Str) (s : Str) (hw : IdentOk w = true)
    (hs : headClean s = true) :
    shlexTokens (w ++ s) = (shlexTokens s).map (w :: ·) := by
  rcases w with _ | ⟨c, w'⟩
  · exact absurd hw (by simp [IdentOk])
  simp only [IdentOk, List.all_cons, Bool.and_eq_true, Bool.not_eq_true,
    List.isEmpty_cons] at hw
  have hc : isWordChar c = true := hw.2.1
  have hw' : w'.all isWordChar = true := hw.2.2
  have hpre := lexRun_ws_word_pre c w' s hc hw'
  rcases s with _ | ⟨d, s'⟩
  · simp only [List.append_nil] at hpre ⊢
    rw [shlexTokens_eq, hpre]
    simp [shlexTokens, lexRun, finishLex]
  · simp only [headClean, Bool.and_eq_true, Bool.not_eq_true'] at hs
    by_cases hd : isWs d = true
    · have h1 : lexRun (.word (w'.reverse ++ [c])) (d :: s') =
          ((lexRun .ws s').1, (c :: w') :: (lexRun .ws s').2) := by
        simp [lexRun, lexStep, hd]
      rw [shlexTokens_eq, hpre, h1, shlexTokens_ws s' hd, shlexTokens_eq]
      cases finishLex (lexRun .ws s').1 <;> simp
    · simp only [Bool.not_eq_true] at hd
      have h1 : lexRun (.word (w'.reverse ++ [c])) (d :: s') =
          ((lexRun .ws s').1, (c :: w') :: [d] :: (lexRun .ws s').2) := by
        simp [lexRun, lexStep, hd, hs.1, hs.2]
      rw [shlexTokens_eq, hpre, h1, shlexTokens_punct s' hd hs.1 hs.2,
        shlexTokens_eq]
      cases finishLex (lexRun .ws s').1 <;> simp

theorem shlexTokens_quoted (v : Str) (s : Str) (hv : v.all (· ≠ sq) = true) :
    shlexTokens ((sq :: v ++ [sq]) ++ s) =
      (shlexTokens s).map ((sq :: v ++ [sq]) :: ·) := by
  have hq : isQuoteChar sq = true := by decide
  have hrun : lexRun (.quoted sq [sq]) (v ++ (sq :: s)) =
      ((lexRun .ws s).1, (sq :: v ++ [sq]) :: (lexRun .ws s).2) := by
    have happ := lexRun_append (.quoted sq [sq]) v (sq :: s)
    rw [lexRun_quoted_chars v sq [sq] hv] at happ
    rw [happ]
    simp [lexRun, lexStep]
  have hstep : (sq :: v ++ [sq]) ++ s = sq :: (v ++ (sq :: s)) := by simp
  rw [hstep]
  rw [shlexTokens_eq]
  have hone : lexRun .ws (sq :: (v ++ (sq :: s))) =
      lexRun (.quoted sq [sq]) (v ++ (sq :: s)) := by
    simp [lexRun, lexStep, isWs_false_of_isQuoteChar hq,
      isWordChar_false_of_isQuoteChar hq, hq]
  rw [hone, hrun, shlexTokens_eq]
  cases finishLex (lexRun .ws s).1 <;> simp

theorem headClean_piecesText (rest : List Piece) (h : PiecesOk rest = true)
    (hhead : match rest with | [] => True | q :: _ => q.startsClean = true) :
    headClean (piecesText rest) = true := by
  rcases rest with _ | ⟨q, rest'⟩
  · simp [piecesText, headClean]
  · simp only [PiecesOk, Bool.and_eq_true] at h
    rcases q with _ | w | c | v
    · rfl
    · exact absurd hhead (by simp [Piece.startsClean])
    · have hok := h.1.1
      simp only [Piece.ok, Bool.and_eq_true, Bool.not_eq_true'] at hok
      simp [piecesText, Piece.text, headClean, hok.1.2, hok.2]
    · exact absurd hhead (by simp [Piece.startsClean])

theorem lexPieces (ps : List Piece) (h : PiecesOk ps = true) :
    shlexTokens (piecesText ps) = some (piecesToks ps) := by
  induction ps with
  | nil => simp [piecesText, piecesToks, shlexTokens, lexRun, finishLex]
  | cons p rest ih =>
      have hrest : PiecesOk rest = true := by
        simp only [PiecesOk, Bool.and_eq_true] at h
        exact h.2
      have hok : p.ok = true := by
        simp only [PiecesOk, Bool.and_eq_true] at h
        exact h.1.1
      have htext : piecesText (p :: rest) = p.text ++ piecesText rest := by
        simp [piecesText]
      have htoks : piecesToks (p :: rest) = p.toks ++ piecesToks rest := by
        simp [piecesToks]
      rw [htext, htoks]
      rcases p with _ | w | c | v
      · simpa [Piece.text, Piece.toks] using
          (shlexTokens_ws (piecesText rest)
            (show isWs ' ' = true by decide)).trans (ih hrest)
      · have hclean : headClean (piecesText rest) = true := by
          apply headClean_piecesText rest hrest
          rcases rest with _ | ⟨q, rest'⟩
          · trivial
          · simp only [PiecesOk, Bool.and_eq_true] at h
            exact h.1.2
        rw [show Piece.text (.word w) = w from rfl,
          shlexTokens_word w _ hok hclean, ih hrest]
        simp [Piece.toks]
      · have hok' := hok
        simp only [Piece.ok, Bool.and_eq_true, Bool.not_eq_true'] at hok'
        rw [show Piece.text (.punct c) = [c] from rfl,
          show ([c] : Str) ++ piecesText rest = c :: piecesText rest from rfl,
          shlexTokens_punct _ hok'.1.1 hok'.1.2 hok'.2, ih hrest]
        simp [Piece.toks]
      · have hv : v.all (· ≠ sq) = true := hok
        rw [show Piece.text (.quoted v) = sq :: v ++ [sq] from rfl,
          shlexTokens_quoted v _ hv, ih hrest]
        simp [Piece.toks]

/-! ## Text lemmas: the pieces spell exactly the generated strings -/

theorem piecesText_append (ps qs : List Piece) :
    piecesText (ps ++ qs) = piecesText ps ++ piecesText qs := by
  simp [piecesText]

theorem piecesToks_append (ps qs : List Piece) :
    piecesToks (ps ++ qs) = piecesToks ps ++ piecesToks qs := by
  simp [piecesToks]

theorem splitSp_ne_nil (s : Str) : splitSp s ≠ [] := by
  induction s with
  | nil => simp [splitSp]
  | cons c rest ih =>
      by_cases hc : c = ' '
      · simp [splitSp, hc]
      · rcases hr : splitSp rest with _ | ⟨h, t⟩
        · exact absurd hr ih
        · simp [splitSp, hc, hr]

theorem flatMap_sp_splitSp (s : Str) :
    (splitSp s).flatMap (fun w => ' ' :: w) = ' ' :: s := by
  induction s with
  | nil => simp [splitSp]
  | cons c rest ih =>
      by_cases hc : c = ' '
      · subst hc
        simp only [splitSp, if_true]
        simp [ih]
      · rcases hr : splitSp rest with _ | ⟨h, t⟩
        · exact absurd hr (splitSp_ne_nil rest)
        · have hstep : splitSp (c :: rest) = (c :: h) :: t := by
            simp [splitSp, hc, hr]
          rw [hr] at ih
          simp only [List.flatMap_cons] at ih ⊢
          rw [hstep]
          simp only [List.flatMap_cons]
          have hht : h ++ t.flatMap (fun w => ' ' :: w) = rest := by
            simpa using ih
          simp [← hht]

theorem actionPieces_text (a : Option Str) :
    piecesText (actionPieces a) = ' ' :: _iterate_sql_action a := by
  have h : piecesText (actionPieces a) =
      (splitSp (_iterate_sql_action a)).flatMap (fun w => ' ' :: w) := by
    simp only [actionPieces, piecesText]
    induction splitSp (_iterate_sql_action a) with
    | nil => simp
    | cons x xs ih => simp [Piece.text, ih]
  rw [h, flatMap_sp_splitSp]

theorem colPieces_text (c : Column) (ctype : Str) (pc : Nat) :
    piecesText (colPieces c ctype pc) =
      _process_column_constraints c ctype pc ++ str "," := by
  rcases hd : c.default with _ | l
  · by_cases h1 : c.nullable <;> by_cases h2 : c.unique <;>
      by_cases h3 : (c.primary && pc == 1) = true <;>
        by_cases h4 : c.auto_increment <;>
          simp [colPieces, colInnerPieces, _process_column_constraints, piecesText,
            Piece.text, pyRepr, str, hd, h1, h2, h3, h4]
  · rcases l with v | n
    · by_cases hv : v.isEmpty <;> by_cases h1 : c.nullable <;>
        by_cases h2 : c.unique <;>
          by_cases h3 : (c.primary && pc == 1) = true <;>
            by_cases h4 : c.auto_increment <;>
              simp [colPieces, colInnerPieces, _process_column_constraints, piecesText,
                Piece.text, pyRepr, PyLit.truthy, str, sq, hd, hv, h1, h2,
                h3, h4]
    · by_cases hn : (n != 0) = true <;> by_cases h1 : c.nullable <;>
        by_cases h2 : c.unique <;>
          by_cases h3 : (c.primary && pc == 1) = true <;>
            by_cases h4 : c.auto_increment <;>
              simp [colPieces, colInnerPieces, _process_column_constraints, piecesText,
                Piece.text, pyRepr, PyLit.truthy, str, hd, hn, h1, h2, h3,
                h4]

theorem namesPieces_text (names : List Str) :
    piecesText (namesPieces names) =
      List.intercalate (str ", ") names := by
  rcases names with _ | ⟨n, rest⟩
  · simp [namesPieces, piecesText, List.intercalate]
  · induction rest generalizing n with
    | nil => simp [namesPieces, piecesText, Piece.text, List.intercalate]
    | cons m rest ih =>
        have hexp : List.intercalate (str ", ") (n :: m :: rest) =
            n ++ str ", " ++ List.intercalate (str ", ") (m :: rest) := by
          simp [List.intercalate, List.intersperse_cons_cons]
        rw [hexp, ← ih m]
        simp [namesPieces, piecesText, Piece.text, str]

theorem pkPieces_text (primaries : List Column)
    (h : primaries.isEmpty = false) :
    piecesText (pkPieces (primaries.map Column.name)) =
      add_primary_keys primaries := by
  simp only [add_primary_keys, h, Bool.false_eq_true, if_false,
    pkPieces, piecesText_append]
  rw [show piecesText (namesPieces (primaries.map Column.name)) =
    List.intercalate (str ", ") (primaries.map Column.name) from
    namesPieces_text _]
  simp [piecesText, Piece.text, str]

theorem fkPieces_text (c : Column) :
    piecesText (fkPieces c) = foreignClause c := by
  simp only [fkPieces, fkInnerPieces, List.append_assoc, piecesText_append,
    actionPieces_text]
  simp [foreignClause, piecesText, Piece.text, str]

theorem allPieces_text (columns : List Column)
    (tm : Option (List (Str × Str))) :
    extractorString columns tm =
      piecesText (allPieces columns (_get_type_mappings tm)
        ((columns.filter (·.primary)).length)) := by
  rw [extractorString_eq]
  simp only [allPieces, piecesText_append]
  have h1 : piecesText (columns.flatMap (fun c =>
      colPieces c (resolveType (_get_type_mappings tm) c.type_)
        ((columns.filter (·.primary)).length))) =
      columnFragments columns (_get_type_mappings tm)
        ((columns.filter (·.primary)).length) := by
    generalize (columns.filter (·.primary)).length = pc
    induction columns with
    | nil => simp [piecesText, columnFragments]
    | cons c rest ih =>
        simp only [List.flatMap_cons, piecesText_append, ih,
          columnFragments, List.map_cons, List.flatten_cons]
        rw [colPieces_text]
  have h2 : piecesText
      (if (primariesOf columns ((columns.filter (·.primary)).length)).isEmpty
       then []
       else pkPieces ((primariesOf columns
         ((columns.filter (·.primary)).length)).map Column.name)) =
      add_primary_keys
        (primariesOf columns ((columns.filter (·.primary)).length)) := by
    by_cases hp : (primariesOf columns
        ((columns.filter (·.primary)).length)).isEmpty
    · simp [hp, piecesText, add_primary_keys]
    · simp only [hp, Bool.false_eq_true, if_false]
      exact pkPieces_text _ (by simpa using hp)
  have h3 : piecesText ((foreignsOf columns).flatMap fkPieces) =
      add_foreign_keys (foreignsOf columns) := by
    induction foreignsOf columns with
    | nil => simp [piecesText, add_foreign_keys]
    | cons c rest ih =>
        simp only [List.flatMap_cons, piecesText_append, ih,
          add_foreign_keys, List.map_cons, List.flatten_cons]
        rw [fkPieces_text]
  rw [h1, h2, h3]

/-! ## Well-formedness lemmas for pieces -/

theorem PiecesOk_tail {p : Piece} {ps : List Piece}
    (h : PiecesOk (p :: ps) = true) : PiecesOk ps = true := by
  simp only [PiecesOk, Bool.and_eq_true] at h
  exact h.2

theorem PiecesOk_append (ps qs : List Piece) (hp : PiecesOk ps = true)
    (hq : PiecesOk qs = true) (hc : startsCleanList qs = true) :
    PiecesOk (ps ++ qs) = true := by
  induction ps with
  | nil => simpa using hq
  | cons p rest ih =>
      simp only [PiecesOk, Bool.and_eq_true] at hp
      have hih := ih hp.2
      simp only [List.cons_append, PiecesOk, Bool.and_eq_true]
      refine ⟨⟨hp.1.1, ?_⟩, hih⟩
      rcases p with _ | w | c | v <;> try simp
      -- word case: boundary check on `rest ++ qs`
      rcases rest with _ | ⟨r, rest'⟩
      · rcases qs with _ | ⟨q, qs'⟩
        · simp
        · simpa [startsCleanList] using hc
      · have := hp.1.2
        simpa using this

theorem PiecesOk_of_append_concat {ps : List Piece} {p : Piece}
    (h : PiecesOk (ps ++ [p]) = true) : PiecesOk ps = true := by
  induction ps with
  | nil => rfl
  | cons q rest ih =>
      simp only [List.cons_append, PiecesOk, Bool.and_eq_true] at h
      have hih := ih h.2
      simp only [PiecesOk, Bool.and_eq_true]
      refine ⟨⟨h.1.1, ?_⟩, hih⟩
      rcases q with _ | w | c | v <;> try simp
      rcases rest with _ | ⟨r, rest'⟩
      · simp
      · have := h.1.2
        simpa using this

theorem all_ne_sq_of_IdentOk {v : Str} (h : IdentOk v = true) :
    v.all (· ≠ sq) = true := by
  simp only [IdentOk, Bool.and_eq_true, List.all_eq_true] at h
  simp only [List.all_eq_true, decide_eq_true_eq]
  intro x hx he
  have hw := h.2 x hx
  subst he
  exact absurd hw (by decide)

theorem IdentOk_of_TypeOk {t : Str} (h : TypeOk t = true) :
    IdentOk t = true := by
  simp only [TypeOk, Bool.and_eq_true] at h
  have hmem : t ∈ SQLITETYPES := by simpa using h.1
  have : t = str "null" ∨ t = str "integer" ∨ t = str "real" ∨
      t = str "text" ∨ t = str "blob" := by
    simpa [SQLITETYPES] using hmem
  rcases this with rfl | rfl | rfl | rfl | rfl <;> decide

theorem IdentOk_of_NameOk {s : Str} (h : NameOk s = true) :
    IdentOk s = true := by
  simp only [NameOk, Bool.and_eq_true] at h
  exact h.1

theorem ne_of_NameOk_kw {s : Str} (k : String) (h : NameOk s = true)
    (hk : (KEYWORDS.contains (pyLower (str k))) = true) : s ≠ str k := by
  intro he
  subst he
  simp only [NameOk, Bool.and_eq_true, Bool.not_eq_true'] at h
  exact Bool.false_ne_true (h.2.symm.trans hk)

theorem ne_primary_of_NameOk {s : Str} (h : NameOk s = true) :
    s ≠ str "primary" :=
  ne_of_NameOk_kw "primary" h (by decide)

theorem ne_primary_of_TypeOk {t : Str} (h : TypeOk t = true) :
    t ≠ str "primary" := by
  simp only [TypeOk, Bool.and_eq_true] at h
  have hmem : t ∈ SQLITETYPES := by simpa using h.1
  have : t = str "null" ∨ t = str "integer" ∨ t = str "real" ∨
      t = str "text" ∨ t = str "blob" := by
    simpa [SQLITETYPES] using hmem
  rcases this with rfl | rfl | rfl | rfl | rfl <;> decide

theorem colPieces_ok (c : Column) (ctype : Str) (pc : Nat)
    (hn : NameOk c.name = true) (ht : IdentOk ctype = true)
    (hd : DefaultOk c.default = true) :
    PiecesOk (colPieces c ctype pc) = true := by
  have hn' : Piece.ok (.word c.name) = true := by
    simpa [Piece.ok] using IdentOk_of_NameOk hn
  have ht' : Piece.ok (.word ctype) = true := by simpa [Piece.ok] using ht
  have hsp : Piece.ok .sp = true := rfl
  have wnot : Piece.ok (.word (str "not")) = true := by decide
  have wnull : Piece.ok (.word (str "null")) = true := by decide
  have wuni : Piece.ok (.word (str "unique")) = true := by decide
  have wdef : Piece.ok (.word (str "default")) = true := by decide
  have wpri : Piece.ok (.word (str "primary")) = true := by decide
  have wkey : Piece.ok (.word (str "key")) = true := by decide
  have wai : Piece.ok (.word (str "autoincrement")) = true := by decide
  have pcm : Piece.ok (.punct ',') = true := by decide
  rcases hdflt : c.default with _ | l
  · by_cases h1 : c.nullable <;> by_cases h2 : c.unique <;>
      by_cases h3 : (c.primary && pc == 1) = true <;>
        by_cases h4 : c.auto_increment <;>
          simp [colPieces, colInnerPieces, hdflt, h1, h2, h3, h4, PiecesOk,
            Piece.startsClean, hsp, hn', ht', wnot, wnull, wuni, wdef,
            wpri, wkey, wai, pcm]
  · rw [hdflt] at hd
    rcases l with v | n
    · by_cases hv : v.isEmpty = true
      · by_cases h1 : c.nullable <;> by_cases h2 : c.unique <;>
          by_cases h3 : (c.primary && pc == 1) = true <;>
            by_cases h4 : c.auto_increment <;>
              simp [colPieces, colInnerPieces, hdflt, PyLit.truthy, hv, h1,
                h2, h3, h4,
                PiecesOk, Piece.startsClean, hsp, hn', ht', wnot, wnull,
                wuni, wdef, wpri, wkey, wai, pcm]
      · have hnv : NameOk v = true := by
          simp only [DefaultOk, Bool.or_eq_true] at hd
          rcases hd with hd | hd
          · exact absurd hd hv
          · exact hd
        have hq' : Piece.ok (.quoted v) = true := by
          simpa [Piece.ok] using
            all_ne_sq_of_IdentOk (IdentOk_of_NameOk hnv)
        by_cases h1 : c.nullable <;> by_cases h2 : c.unique <;>
          by_cases h3 : (c.primary && pc == 1) = true <;>
            by_cases h4 : c.auto_increment <;>
              simp [colPieces, colInnerPieces, hdflt, PyLit.truthy, hv, h1,
                h2, h3, h4,
                PiecesOk, Piece.startsClean, hsp, hn', ht', wnot, wnull,
                wuni, wdef, wpri, wkey, wai, pcm, hq']
    · exact absurd hd (by simp [DefaultOk])

theorem PiecesOk_append_notword (ps qs : List Piece)
    (hp : PiecesOk ps = true) (hq : PiecesOk qs = true)
    (hlast : ∀ w, ps.getLast? ≠ some (.word w)) :
    PiecesOk (ps ++ qs) = true := by
  induction ps with
  | nil => simpa using hq
  | cons p rest ih =>
      simp only [PiecesOk, Bool.and_eq_true] at hp
      rcases rest with _ | ⟨r, rest'⟩
      · simp only [List.nil_append] at ih ⊢
        simp only [List.singleton_append, PiecesOk, Bool.and_eq_true]
        refine ⟨⟨hp.1.1, ?_⟩, hq⟩
        rcases p with _ | w | c | v
        · simp
        · exact absurd (by simp : ([Piece.word w] : List Piece).getLast? =
            some (.word w)) (hlast w)
        · simp
        · simp
      · have hih := ih hp.2 (fun w hw => hlast w (by
          rw [List.getLast?_cons_cons]
          exact hw))
        simp only [List.cons_append, PiecesOk, Bool.and_eq_true] at hih ⊢
        refine ⟨⟨hp.1.1, ?_⟩, hih⟩
        rcases p with _ | w | c | v <;> try simp
        have := hp.1.2
        simpa using this

theorem namesSeg_ok (names : List Str) (tailp : List Piece)
    (h : ∀ n ∈ names, IdentOk n = true) (htail : PiecesOk tailp = true)
    (hclean : startsCleanList tailp = true) :
    PiecesOk (namesPieces names ++ tailp) = true := by
  induction names with
  | nil => simpa [namesPieces] using htail
  | cons n rest ih =>
      have hn : Piece.ok (.word n) = true := by
        simpa [Piece.ok] using h n (by simp)
      rcases rest with _ | ⟨m, rest'⟩
      · have hps : PiecesOk [Piece.word n] = true := by
          simp [PiecesOk, hn]
        exact PiecesOk_append [Piece.word n] tailp hps htail hclean
      · have hih := ih (fun x hx => h x (by simp [hx]))
        have hexp : namesPieces (n :: m :: rest') ++ tailp =
            [Piece.word n, .punct ',', .sp] ++
              (namesPieces (m :: rest') ++ tailp) := by
          simp [namesPieces]
        rw [hexp]
        refine PiecesOk_append_notword _ _ ?_ hih ?_
        · simp [PiecesOk, Piece.startsClean, hn] <;> decide
        · intro w
          simp [List.getLast?]
      
theorem pkPieces_ok (names : List Str)
    (h : ∀ n ∈ names, IdentOk n = true) :
    PiecesOk (pkPieces names) = true := by
  have hseg := namesSeg_ok names [Piece.punct ')', Piece.punct ','] h
    (by decide) (by decide)
  have hexp : pkPieces names =
      [Piece.sp, .word (str "primary"), .sp, .word (str "key"), .sp,
        .punct '('] ++
        (namesPieces names ++ [Piece.punct ')', Piece.punct ',']) := by
    simp [pkPieces, List.append_assoc]
  rw [hexp]
  refine PiecesOk_append_notword _ _ (by decide) hseg ?_
  intro w
  simp [List.getLast?]

theorem actionPieces_cons (a : Option Str) :
    ∃ t, actionPieces a = .sp :: t := by
  rcases h : splitSp (_iterate_sql_action a) with _ | ⟨w, ws⟩
  · exact absurd h (splitSp_ne_nil _)
  · refine ⟨Piece.word w :: ws.flatMap (fun w => [Piece.sp, Piece.word w]),
      ?_⟩
    simp [actionPieces, h]

theorem spWordSeg_ok (ws : List Str) (tailp : List Piece)
    (h : ∀ w ∈ ws, IdentOk w = true) (htail : PiecesOk tailp = true)
    (hclean : startsCleanList tailp = true) :
    PiecesOk (ws.flatMap (fun w => [Piece.sp, Piece.word w]) ++ tailp) =
      true := by
  induction ws with
  | nil => simpa using htail
  | cons w ws' ih =>
      have hw : Piece.ok (.word w) = true := by
        simpa [Piece.ok] using h w (by simp)
      have hih := ih (fun x hx => h x (by simp [hx]))
      have hexp : (w :: ws').flatMap (fun w => [Piece.sp, Piece.word w]) ++
          tailp =
          [Piece.sp, Piece.word w] ++
            (ws'.flatMap (fun w => [Piece.sp, Piece.word w]) ++ tailp) := by
        simp
      rw [hexp]
      have hps : PiecesOk [Piece.sp, Piece.word w] = true := by
        simp [PiecesOk, hw] <;> decide
      refine PiecesOk_append _ _ hps hih ?_
      rcases hws : ws'.flatMap (fun w => [Piece.sp, Piece.word w]) with
        _ | ⟨q, t⟩
      · simpa [hws] using hclean
      · have hq : q = Piece.sp := by
          rcases ws' with _ | ⟨x, xs⟩
          · simp at hws
          · simp only [List.flatMap_cons, List.cons_append,
              List.cons.injEq] at hws
            exact hws.1.symm
        subst hq
        simp [startsCleanList, Piece.startsClean]

theorem actionSeg_ok (a : Option Str) (tailp : List Piece)
    (h : ActionOk a = true) (htail : PiecesOk tailp = true)
    (hclean : startsCleanList tailp = true) :
    PiecesOk (actionPieces a ++ tailp) = true := by
  rcases a with _ | s
  · exact absurd h (by simp [ActionOk])
  · have hws : ∀ w ∈ splitSp (_iterate_sql_action (some s)),
        IdentOk w = true := by
      intro w hw
      simp only [ActionOk, List.all_eq_true] at h
      exact IdentOk_of_NameOk (h w hw)
    exact spWordSeg_ok _ tailp hws htail hclean

theorem startsCleanList_action (a : Option Str) (X : List Piece) :
    startsCleanList (actionPieces a ++ X) = true := by
  obtain ⟨t, ht⟩ := actionPieces_cons a
  rw [ht]
  rfl

theorem fkPieces_ok (c : Column) (hn : NameOk c.name = true)
    (hsrc : NameOk c.source = true) (hscol : NameOk c.source_column = true)
    (hdel : ActionOk c.on_delete = true)
    (hupd : ActionOk c.on_update = true) :
    PiecesOk (fkPieces c) = true := by
  have hn' : Piece.ok (.word c.name) = true := by
    simpa [Piece.ok] using IdentOk_of_NameOk hn
  have hs' : Piece.ok (.word c.source) = true := by
    simpa [Piece.ok] using IdentOk_of_NameOk hsrc
  have hc' : Piece.ok (.word c.source_column) = true := by
    simpa [Piece.ok] using IdentOk_of_NameOk hscol
  have hq2 : PiecesOk (actionPieces c.on_update ++ [Piece.punct ',']) =
      true := actionSeg_ok _ _ hupd (by decide) (by decide)
  have hT : PiecesOk
      ([Piece.sp, .word (str "on"), .sp, .word (str "update")] ++
        (actionPieces c.on_update ++ [Piece.punct ','])) = true :=
    PiecesOk_append _ _ (by decide) hq2 (startsCleanList_action _ _)
  have hQ : PiecesOk (actionPieces c.on_delete ++
      ([Piece.sp, .word (str "on"), .sp, .word (str "update")] ++
        (actionPieces c.on_update ++ [Piece.punct ',']))) = true :=
    actionSeg_ok _ _ hdel hT rfl
  have hexp : fkPieces c =
      [Piece.sp, .word (str "foreign"), .sp, .word (str "key"), .sp,
        .punct '(', .word c.name, .punct ')', .sp, .word (str "references"),
        .sp, .word c.source, .sp, .punct '(', .word c.source_column,
        .punct ')', .sp, .word (str "on"), .sp, .word (str "delete")] ++
        (actionPieces c.on_delete ++
          ([Piece.sp, .word (str "on"), .sp, .word (str "update")] ++
            (actionPieces c.on_update ++ [Piece.punct ',']))) := by
    simp [fkPieces, fkInnerPieces, List.append_assoc]
  rw [hexp]
  refine PiecesOk_append _ _ ?_ hQ (startsCleanList_action _ _)
  simp [PiecesOk, Piece.startsClean, hn', hs', hc']
  decide

theorem flatMapSeg_ok {β : Type} (l : List β) (f : β → List Piece)
    (hok : ∀ x ∈ l, PiecesOk (f x) = true)
    (hhead : ∀ x X, startsCleanList (f x ++ X) = true) :
    PiecesOk (l.flatMap f) = true := by
  induction l with
  | nil => rfl
  | cons x xs ih =>
      simp only [List.flatMap_cons]
      refine PiecesOk_append _ _ (hok x (by simp))
        (ih (fun y hy => hok y (by simp [hy]))) ?_
      rcases xs with _ | ⟨y, ys⟩
      · simp [startsCleanList]
      · simp only [List.flatMap_cons]
        rw [show (f y ++ ys.flatMap f) = f y ++ ys.flatMap f from rfl]
        have := hhead y (ys.flatMap f)
        simpa using this

theorem startsCleanList_colPieces (c : Column) (ctype : Str) (pc : Nat)
    (X : List Piece) : startsCleanList (colPieces c ctype pc ++ X) = true :=
  rfl

theorem startsCleanList_fkPieces (c : Column) (X : List Piece) :
    startsCleanList (fkPieces c ++ X) = true := rfl

theorem colPieces_concat (c : Column) (ctype : Str) (pc : Nat) :
    ∃ init, colPieces c ctype pc = init ++ [Piece.punct ','] := ⟨_, rfl⟩

theorem fkPieces_concat (c : Column) :
    ∃ init, fkPieces c = init ++ [Piece.punct ','] := ⟨_, rfl⟩

theorem pkPieces_concat (names : List Str) :
    ∃ init, pkPieces names = init ++ [Piece.punct ','] :=
  ⟨[Piece.sp, .word (str "primary"), .sp, .word (str "key"), .sp,
      .punct '('] ++ namesPieces names ++ [Piece.punct ')'],
    by simp [pkPieces]⟩

theorem flatMap_concat_comma {β : Type} (l : List β) (f : β → List Piece)
    (h : ∀ x, ∃ init, f x = init ++ [Piece.punct ',']) :
    l.flatMap f = [] ∨
      ∃ init, l.flatMap f = init ++ [Piece.punct ','] := by
  rcases List.eq_nil_or_concat l with rfl | ⟨l', x, rfl⟩
  · left; rfl
  · right
    obtain ⟨i, hi⟩ := h x
    exact ⟨l'.flatMap f ++ i, by simp [hi]⟩

theorem getLast?_notword_of_concat {ps : List Piece}
    (h : ps = [] ∨ ∃ init, ps = init ++ [Piece.punct ',']) :
    ∀ w, ps.getLast? ≠ some (.word w) := by
  intro w
  rcases h with rfl | ⟨i, rfl⟩
  · simp
  · simp [List.getLast?_concat]

theorem allPieces_ok (columns : List Column) (maps : List (Str × Str))
    (pc : Nat) (h : ∀ c ∈ columns, ColOk maps c = true) :
    PiecesOk (allPieces columns maps pc) = true := by
  have hcols : PiecesOk (columns.flatMap
      (fun c => colPieces c (resolveType maps c.type_) pc)) = true := by
    refine flatMapSeg_ok _ _ (fun c hc => ?_)
      (fun c X => startsCleanList_colPieces _ _ _ _)
    have hok := h c hc
    simp only [ColOk, Bool.and_eq_true] at hok
    exact colPieces_ok c _ pc hok.1.1.1 (IdentOk_of_TypeOk hok.1.1.2)
      hok.1.2
  have hpk : PiecesOk
      (if (primariesOf columns pc).isEmpty then []
       else pkPieces ((primariesOf columns pc).map Column.name)) = true := by
    by_cases hp : (primariesOf columns pc).isEmpty
    · simp [hp, PiecesOk]
    · simp only [hp, Bool.false_eq_true, if_false]
      refine pkPieces_ok _ (fun n hn => ?_)
      simp only [List.mem_map] at hn
      obtain ⟨c, hc, rfl⟩ := hn
      have hc' : c ∈ columns := by
        have := List.mem_filter.mp
          (show c ∈ columns.filter (fun c => c.primary && !(pc == 1))
           from hc)
        exact this.1
      have hok := h c hc'
      simp only [ColOk, Bool.and_eq_true] at hok
      exact IdentOk_of_NameOk hok.1.1.1
  have hfk : PiecesOk ((foreignsOf columns).flatMap fkPieces) = true := by
    refine flatMapSeg_ok _ _ (fun c hc => ?_)
      (fun c X => startsCleanList_fkPieces _ _)
    have hc' : c ∈ columns ∧ pyTruthy c.raw_source = true := by
      have := List.mem_filter.mp
        (show c ∈ columns.filter (fun c => pyTruthy c.raw_source) from hc)
      exact ⟨this.1, this.2⟩
    have hok := h c hc'.1
    simp only [ColOk, Bool.and_eq_true] at hok
    have hsrc := hok.2
    rcases hrs : c.raw_source with _ | rs
    · rw [hrs] at hc'
      simp [pyTruthy] at hc'
    · simp only [SourceOk, hrs, Bool.and_eq_true] at hsrc
      exact fkPieces_ok c hok.1.1.1 hsrc.1.1.1.2 hsrc.1.1.2 hsrc.1.2
        hsrc.2
  have hlast1 := getLast?_notword_of_concat
    (flatMap_concat_comma columns
      (fun c => colPieces c (resolveType maps c.type_) pc)
      (fun c => colPieces_concat c (resolveType maps c.type_) pc))
  have hmid : PiecesOk
      ((if (primariesOf columns pc).isEmpty then []
        else pkPieces ((primariesOf columns pc).map Column.name)) ++
        (foreignsOf columns).flatMap fkPieces) = true := by
    refine PiecesOk_append_notword _ _ hpk hfk ?_
    apply getLast?_notword_of_concat
    by_cases hp : (primariesOf columns pc).isEmpty
    · left; simp [hp]
    · right
      simp only [hp, Bool.false_eq_true, if_false]
      exact pkPieces_concat _
  rw [show allPieces columns maps pc =
    (columns.flatMap (fun c => colPieces c (resolveType maps c.type_) pc) ++
      (if (primariesOf columns pc).isEmpty then []
       else pkPieces ((primariesOf columns pc).map Column.name))) ++
      (foreignsOf columns).flatMap fkPieces from rfl, List.append_assoc]
  exact PiecesOk_append_notword _ _ hcols hmid hlast1

/-! ## Counting primary-key clauses at the token level -/

theorem countPK_no_primary (ts : List Str)
    (h : ∀ t ∈ ts, t ≠ str "primary") : countPK ts = 0 := by
  induction ts with
  | nil => rfl
  | cons a rest ih =>
      rcases rest with _ | ⟨b, rest'⟩
      · rfl
      · have ha : a ≠ str "primary" := h a (by simp)
        have hr := ih (fun t ht => h t (by simp [ht]))
        simp only [countPK, ha, false_and, if_false]
        omega

theorem countPK_append_of_last (as bs : List Str)
    (h : as.getLast? ≠ some (str "primary")) :
    countPK (as ++ bs) = countPK as + countPK bs := by
  induction as with
  | nil => simp [countPK]
  | cons a rest ih =>
      rcases rest with _ | ⟨b, rest'⟩
      · have ha : a ≠ str "primary" := by simpa using h
        rcases bs with _ | ⟨b0, bs'⟩
        · simp [countPK]
        · simp [countPK, ha]
      · have hlast : (b :: rest').getLast? ≠ some (str "primary") := by
          rwa [List.getLast?_cons_cons] at h
        have hih := ih hlast
        simp only [List.cons_append] at hih ⊢
        simp only [countPK, hih]
        omega

theorem countPK_concat_ne_key (as : List Str) (t : Str)
    (ht : t ≠ str "key") : countPK (as ++ [t]) = countPK as := by
  induction as with
  | nil => simp [countPK]
  | cons a rest ih =>
      rcases rest with _ | ⟨b, rest'⟩
      · simp [countPK, ht]
      · simp only [List.cons_append] at ih ⊢
        simp only [countPK, ih]

theorem countPK_colToks (c : Column) (ctype : Str) (pc : Nat)
    (hn : c.name ≠ str "primary") (hd : DefaultOk c.default = true) :
    countPK (piecesToks (colPieces c ctype pc)) =
      if (c.primary && pc == 1) = true then 1 else 0 := by
  have hn' : ¬(c.name = str "primary") := hn
  replace hn' : ¬(c.name = String.data "primary") := by simpa [str] using hn'
  rcases hdflt : c.default with _ | l
  · by_cases h1 : c.nullable <;> by_cases h2 : c.unique <;>
      by_cases h3 : (c.primary && pc == 1) = true <;>
        by_cases h4 : c.auto_increment <;>
          simp [colPieces, colInnerPieces, piecesToks, Piece.toks, hdflt,
            h1, h2, h3, h4,
            countPK, hn', str]
  · rw [hdflt] at hd
    rcases l with v | n
    · by_cases hv : v.isEmpty = true <;> by_cases h1 : c.nullable <;>
        by_cases h2 : c.unique <;>
          by_cases h3 : (c.primary && pc == 1) = true <;>
            by_cases h4 : c.auto_increment <;>
              simp [colPieces, colInnerPieces, piecesToks, Piece.toks,
                PyLit.truthy, hdflt,
                hv, h1, h2, h3, h4, countPK, hn', str]
    · exact absurd hd (by simp [DefaultOk])

theorem colToks_concat (c : Column) (ctype : Str) (pc : Nat) :
    ∃ i, piecesToks (colPieces c ctype pc) = i ++ [str ","] := by
  obtain ⟨i, hi⟩ := colPieces_concat c ctype pc
  exact ⟨piecesToks i, by simp [hi, piecesToks_append, piecesToks,
    Piece.toks, str]⟩

theorem fkToks_concat (c : Column) :
    ∃ i, piecesToks (fkPieces c) = i ++ [str ","] := by
  obtain ⟨i, hi⟩ := fkPieces_concat c
  exact ⟨piecesToks i, by simp [hi, piecesToks_append, piecesToks,
    Piece.toks, str]⟩

theorem pkToks_concat (names : List Str) :
    ∃ i, piecesToks (pkPieces names) = i ++ [str ","] := by
  obtain ⟨i, hi⟩ := pkPieces_concat names
  exact ⟨piecesToks i, by simp [hi, piecesToks_append, piecesToks,
    Piece.toks, str]⟩

theorem getLast_ne_primary_of_comma {ts : List Str}
    (h : ts = [] ∨ ∃ i, ts = i ++ [str ","]) :
    ts.getLast? ≠ some (str "primary") := by
  rcases h with rfl | ⟨i, rfl⟩
  · simp
  · rw [List.getLast?_concat]
    simp [str]

theorem actionToks (a : Option Str) :
    piecesToks (actionPieces a) = splitSp (_iterate_sql_action a) := by
  simp only [actionPieces, piecesToks]
  induction splitSp (_iterate_sql_action a) with
  | nil => rfl
  | cons w ws ih => simp [Piece.toks, ih]

theorem countPK_sep_names (names : List Str) (pre : Str)
    (hpre : pre ≠ str "primary") (tl : List Str) (htl : tl = [str ")", str ","]) :
    countPK (pre :: (piecesToks (namesPieces names) ++ tl)) = 0 := by
  subst htl
  induction names generalizing pre with
  | nil => simp [namesPieces, piecesToks, countPK, hpre, str]
  | cons n rest ih =>
      have hpre' : ¬(pre = String.data "primary") := by simpa [str] using hpre
      rcases rest with _ | ⟨m, rest'⟩
      · simp [namesPieces, piecesToks, Piece.toks, countPK, hpre', str]
      · have hexp : piecesToks (namesPieces (n :: m :: rest')) =
            n :: str "," :: piecesToks (namesPieces (m :: rest')) := by
          simp [namesPieces, piecesToks, Piece.toks, str]
        rw [hexp]
        have hih := ih (str ",") (by simp [str])
        simp only [List.cons_append, countPK] at hih ⊢
        simp only [hpre, false_and, if_false]
        have hcomma : ¬(n = str "primary" ∧ str "," = str "key") := by
          simp [str]
        simp only [hcomma, if_false]
        omega

theorem countPK_pkToks (names : List Str) :
    countPK (piecesToks (pkPieces names)) = 1 := by
  have hexp : piecesToks (pkPieces names) =
      str "primary" :: str "key" ::
        (str "(" :: (piecesToks (namesPieces names) ++
          [str ")", str ","])) := by
    simp [pkPieces, piecesToks_append, piecesToks, Piece.toks, str]
  have h0 : countPK (str "(" :: (piecesToks (namesPieces names) ++
      [str ")", str ","])) = 0 :=
    countPK_sep_names names (str "(") (by simp [str]) _ rfl
  obtain ⟨x, xs, hxs⟩ : ∃ x xs,
      piecesToks (namesPieces names) ++ [str ")", str ","] = x :: xs := by
    rcases hl : piecesToks (namesPieces names) ++ [str ")", str ","] with
      _ | ⟨a, b⟩
    · exact absurd hl (by simp)
    · exact ⟨a, b, rfl⟩
  rw [hexp, hxs]
  rw [hxs] at h0
  have hp : (str "primary" = str "primary" ∧ str "key" = str "key") :=
    ⟨rfl, rfl⟩
  have hk : ¬(str "key" = str "primary" ∧ str "(" = str "key") := by
    simp [str]
  have e1 : countPK (str "primary" :: str "key" :: str "(" :: x :: xs) =
      (if str "primary" = str "primary" ∧ str "key" = str "key" then 1
       else 0) + countPK (str "key" :: str "(" :: x :: xs) := rfl
  have e2 : countPK (str "key" :: str "(" :: x :: xs) =
      (if str "key" = str "primary" ∧ str "(" = str "key" then 1 else 0) +
        countPK (str "(" :: x :: xs) := rfl
  rw [e1, e2, h0, if_pos hp, if_neg hk]

theorem countPK_fkToks (c : Column) (hn : NameOk c.name = true)
    (hsrc : NameOk c.source = true) (hscol : NameOk c.source_column = true)
    (hdel : ActionOk c.on_delete = true)
    (hupd : ActionOk c.on_update = true) :
    countPK (piecesToks (fkPieces c)) = 0 := by
  apply countPK_no_primary
  intro t ht
  have ha1 : (List.map Piece.toks (actionPieces c.on_delete)).flatten =
      splitSp (_iterate_sql_action c.on_delete) := actionToks _
  have ha2 : (List.map Piece.toks (actionPieces c.on_update)).flatten =
      splitSp (_iterate_sql_action c.on_update) := actionToks _
  have hexp : piecesToks (fkPieces c) =
      [str "foreign", str "key", str "(", c.name, str ")",
        str "references", c.source, str "(", c.source_column, str ")",
        str "on", str "delete"] ++
        splitSp (_iterate_sql_action c.on_delete) ++
        [str "on", str "update"] ++
        splitSp (_iterate_sql_action c.on_update) ++ [str ","] := by
    simp [fkPieces, fkInnerPieces, piecesToks_append, piecesToks,
      Piece.toks, ha1, ha2, str, List.append_assoc]
  rw [hexp] at ht
  simp only [List.mem_append, List.mem_cons, List.mem_singleton,
    List.not_mem_nil, or_false] at ht
  have hact : ∀ (a : Option Str), ActionOk a = true →
      ∀ w ∈ splitSp (_iterate_sql_action a), w ≠ str "primary" := by
    intro a ha w hw
    rcases a with _ | s
    · exact absurd ha (by simp [ActionOk])
    · simp only [ActionOk, List.all_eq_true] at ha
      exact ne_primary_of_NameOk (ha w hw)
  rcases ht with ((((rfl | rfl | rfl | rfl | rfl | rfl | rfl | rfl | rfl |
      rfl | rfl | rfl) | hm) | (rfl | rfl)) | hm2) | rfl
  · simp [str]
  · simp [str]
  · simp [str]
  · exact ne_primary_of_NameOk hn
  · simp [str]
  · simp [str]
  · exact ne_primary_of_NameOk hsrc
  · simp [str]
  · exact ne_primary_of_NameOk hscol
  · simp [str]
  · simp [str]
  · simp [str]
  · exact hact _ hdel t hm
  · simp [str]
  · simp [str]
  · exact hact _ hupd t hm2
  · simp [str]

theorem toks_flatMap_comma {β : Type} (l : List β) (f : β → List Piece)
    (h : ∀ x, ∃ i, piecesToks (f x) = i ++ [str ","]) :
    piecesToks (l.flatMap f) = [] ∨
      ∃ i, piecesToks (l.flatMap f) = i ++ [str ","] := by
  rcases List.eq_nil_or_concat l with rfl | ⟨l', x, rfl⟩
  · left; rfl
  · right
    obtain ⟨i, hi⟩ := h x
    refine ⟨piecesToks (l'.flatMap f) ++ i, ?_⟩
    rw [List.concat_eq_append, List.flatMap_append, piecesToks_append]
    simp [hi]

theorem countPK_flatMap_cols (columns : List Column)
    (maps : List (Str × Str)) (pc : Nat)
    (h : ∀ c ∈ columns,
      c.name ≠ str "primary" ∧ DefaultOk c.default = true) :
    countPK (piecesToks (columns.flatMap
      (fun c => colPieces c (resolveType maps c.type_) pc))) =
      (columns.filter (fun c => c.primary && pc == 1)).length := by
  induction columns with
  | nil => simp [piecesToks, countPK]
  | cons c rest ih =>
      have hc := h c (by simp)
      have hih := ih (fun x hx => h x (by simp [hx]))
      simp only [List.flatMap_cons, piecesToks_append]
      rw [countPK_append_of_last _ _
        (getLast_ne_primary_of_comma (Or.inr (colToks_concat c _ pc)))]
      rw [countPK_colToks c _ pc hc.1 hc.2, hih]
      simp only [List.filter_cons]
      by_cases hp : (c.primary && pc == 1) = true <;> simp [hp] <;> omega

theorem countPK_flatMap_zero (l : List Column)
    (hmem : ∀ c ∈ l, countPK (piecesToks (fkPieces c)) = 0) :
    countPK (piecesToks (l.flatMap fkPieces)) = 0 := by
  induction l with
  | nil => simp [piecesToks, countPK]
  | cons c rest ih =>
      simp only [List.flatMap_cons, piecesToks_append]
      rw [countPK_append_of_last _ _
        (getLast_ne_primary_of_comma (Or.inr (fkToks_concat c)))]
      rw [hmem c (by simp), ih (fun x hx => hmem x (by simp [hx]))]

theorem countPK_flatMap_fks (columns : List Column)
    (maps : List (Str × Str))
    (h : ∀ c ∈ columns, ColOk maps c = true) :
    countPK (piecesToks ((foreignsOf columns).flatMap fkPieces)) = 0 := by
  have hmem : ∀ c ∈ foreignsOf columns,
      countPK (piecesToks (fkPieces c)) = 0 := by
    intro c hc
    have hc' := List.mem_filter.mp
      (show c ∈ columns.filter (fun c => pyTruthy c.raw_source) from hc)
    have hok := h c hc'.1
    simp only [ColOk, Bool.and_eq_true] at hok
    rcases hrs : c.raw_source with _ | rs
    · rw [hrs] at hc'
      simp [pyTruthy] at hc'
    · have hsrc := hok.2
      simp only [SourceOk, hrs, Bool.and_eq_true] at hsrc
      exact countPK_fkToks c hok.1.1.1 hsrc.1.1.1.2 hsrc.1.1.2 hsrc.1.2
        hsrc.2
  exact countPK_flatMap_zero _ hmem

theorem countPK_allPieces (columns : List Column)
    (maps : List (Str × Str))
    (h : ∀ c ∈ columns, ColOk maps c = true) :
    countPK (piecesToks (allPieces columns maps
      ((columns.filter (·.primary)).length))) =
      if columns.any (·.primary) then 1 else 0 := by
  set pc := (columns.filter (·.primary)).length with hpc
  have hnames : ∀ c ∈ columns,
      c.name ≠ str "primary" ∧ DefaultOk c.default = true := by
    intro c hc
    have hok := h c hc
    simp only [ColOk, Bool.and_eq_true] at hok
    exact ⟨ne_primary_of_NameOk hok.1.1.1, hok.1.2⟩
  rw [show allPieces columns maps pc =
    (columns.flatMap (fun c => colPieces c (resolveType maps c.type_) pc) ++
      (if (primariesOf columns pc).isEmpty then []
       else pkPieces ((primariesOf columns pc).map Column.name))) ++
      (foreignsOf columns).flatMap fkPieces from rfl]
  rw [piecesToks_append, piecesToks_append]
  have hlast2 : ((piecesToks (columns.flatMap
      (fun c => colPieces c (resolveType maps c.type_) pc))) ++
      piecesToks (if (primariesOf columns pc).isEmpty then []
        else pkPieces ((primariesOf columns pc).map
          Column.name))).getLast? ≠ some (str "primary") := by
    by_cases hp : (primariesOf columns pc).isEmpty
    · simp only [hp, if_true]
      rw [show piecesToks [] = [] from rfl, List.append_nil]
      exact getLast_ne_primary_of_comma
        (toks_flatMap_comma _ _ (fun c => colToks_concat c _ pc))
    · simp only [hp, Bool.false_eq_true, if_false]
      obtain ⟨i, hi⟩ := pkToks_concat
        ((primariesOf columns pc).map Column.name)
      rw [hi]
      rw [show ∀ (A B : List Str),
        A ++ (B ++ [str ","]) = (A ++ B) ++ [str ","] from
        fun A B => (List.append_assoc A B _).symm]
      exact getLast_ne_primary_of_comma (Or.inr ⟨_, rfl⟩)
  rw [countPK_append_of_last _ _ hlast2]
  rw [countPK_append_of_last _ _
    (getLast_ne_primary_of_comma
      (toks_flatMap_comma _ _ (fun c => colToks_concat c _ pc)))]
  rw [countPK_flatMap_cols columns maps pc hnames]
  rw [countPK_flatMap_fks columns maps h]
  by_cases h1 : pc = 1
  · have hfilter : (columns.filter (fun c => c.primary && pc == 1)) =
        columns.filter (·.primary) := by
      apply List.filter_congr
      intro c _
      simp [h1]
    have hempty : (primariesOf columns pc).isEmpty = true := by
      have : primariesOf columns pc = [] := by
        apply List.filter_eq_nil_iff.mpr
        intro c _
        simp [h1]
      simp [this]
    have hany : columns.any (·.primary) = true := by
      have : 0 < (columns.filter (·.primary)).length := by omega
      rcases hf : columns.filter (·.primary) with _ | ⟨x, xs⟩
      · rw [hf] at this; simp at this
      · have hx : x ∈ columns.filter (·.primary) := by simp [hf]
        have := List.mem_filter.mp hx
        exact List.any_eq_true.mpr ⟨x, this.1, this.2⟩
    rw [hfilter, hempty, hany]
    simp [← hpc, h1, piecesToks, countPK]
  · have hbeq : (pc == 1) = false := by simpa using h1
    have hfilter : (columns.filter (fun c => c.primary && pc == 1)) = [] := by
      apply List.filter_eq_nil_iff.mpr
      intro c _
      simp [hbeq]
    have hprim : primariesOf columns pc = columns.filter (·.primary) := by
      apply List.filter_congr
      intro c _
      simp [hbeq]
    rw [hfilter, hprim]
    by_cases h0 : (columns.filter (·.primary)).isEmpty
    · have hany : columns.any (·.primary) = false := by
        rcases hc : columns.any (·.primary) with _ | _
        · rfl
        · obtain ⟨x, hx, hxp⟩ := List.any_eq_true.mp hc
          have : x ∈ columns.filter (·.primary) :=
            List.mem_filter.mpr ⟨hx, hxp⟩
          rw [List.isEmpty_iff.mp h0] at this
          simp at this
      rw [h0, hany]
      simp [piecesToks, countPK]
    · have hany : columns.any (·.primary) = true := by
        rcases hf : columns.filter (·.primary) with _ | ⟨x, xs⟩
        · rw [hf] at h0; simp at h0
        · have hx : x ∈ columns.filter (·.primary) := by simp [hf]
          have := List.mem_filter.mp hx
          exact List.any_eq_true.mpr ⟨x, this.1, this.2⟩
      have h0' : (columns.filter (·.primary)).isEmpty = false := by
        simpa using h0
      rw [h0', hany]
      simp [countPK_pkToks]

theorem allPieces_sp_head (c : Column) (rest : List Column)
    (maps : List (Str × Str)) (pc : Nat) :
    ∃ t, allPieces (c :: rest) maps pc = Piece.sp :: t := ⟨_, rfl⟩

theorem allPieces_concat (columns : List Column) (maps : List (Str × Str))
    (pc : Nat) (h : columns ≠ []) :
    ∃ init, allPieces columns maps pc = init ++ [Piece.punct ','] := by
  have hshape : allPieces columns maps pc =
      columns.flatMap (fun c => colPieces c (resolveType maps c.type_) pc) ++
        (if (primariesOf columns pc).isEmpty then []
         else pkPieces ((primariesOf columns pc).map Column.name)) ++
        (foreignsOf columns).flatMap fkPieces := rfl
  rcases flatMap_concat_comma (foreignsOf columns) fkPieces
    (fun c => fkPieces_concat c) with hC | ⟨i3, hi3⟩
  · by_cases hp : (primariesOf columns pc).isEmpty
    · rcases List.eq_nil_or_concat columns with rfl | ⟨l', x, hlx⟩
      · exact absurd rfl h
      · obtain ⟨i1, hi1⟩ :=
          colPieces_concat x (resolveType maps x.type_) pc
        refine ⟨l'.flatMap
          (fun c => colPieces c (resolveType maps c.type_) pc) ++ i1, ?_⟩
        rw [hshape, hC, hp]
        simp only [if_true, List.append_nil]
        rw [hlx, List.concat_eq_append, List.flatMap_append]
        simp [hi1]
    · obtain ⟨i2, hi2⟩ :=
        pkPieces_concat ((primariesOf columns pc).map Column.name)
      refine ⟨columns.flatMap
        (fun c => colPieces c (resolveType maps c.type_) pc) ++ i2, ?_⟩
      rw [hshape, hC, List.append_nil]
      simp only [hp, Bool.false_eq_true, if_false]
      rw [hi2]
      simp [List.append_assoc]
  · refine ⟨columns.flatMap
      (fun c => colPieces c (resolveType maps c.type_) pc) ++
        (if (primariesOf columns pc).isEmpty then []
         else pkPieces ((primariesOf columns pc).map Column.name)) ++ i3,
      ?_⟩
    rw [hshape, hi3]
    simp [List.append_assoc]

theorem sp_concat_mid {ps t i : List Piece}
    (h1 : ps = Piece.sp :: t) (h2 : ps = i ++ [Piece.punct ',']) :
    ∃ mid, ps = Piece.sp :: (mid ++ [Piece.punct ',']) := by
  rcases i with _ | ⟨q, i'⟩
  · rw [h1] at h2
    simp at h2
  · rw [h1] at h2
    simp only [List.cons_append, List.cons.injEq] at h2
    exact ⟨i', by rw [h1, h2.2]⟩

/-! ## Claim theorems (first batch) -/

/-- C1 (code bug): the claimed round-trip identity fails on the code.  For
the valid two-column list `c1cols` with a single primary column, the
generator emits `id integer primary key, name text`, and `extract_table`
on that DDL (wrapped in a CREATE TABLE statement) raises the
"Conflicting primary key definitions" ValueError instead of returning the
descriptors: Phase 2 re-scans the inline fragment, treats its
`primary` token as a table-level clause whose following wrapped group is
empty, and compares the inline set `{id}` against `{""}`. -/
theorem claim_C1_roundtrip_raises :
    extract_table (str "CREATE TABLE test (" ++
        extract_table_creations c1cols none ++ str ")") =
      .error (.valueError (str
        "Conflicting primary key definitions: inline and table-level differ")) := by
  rfl

/-- C3 (spec-modelled): constructing a Column with `auto_increment=true`
and a non-integer type, or without the primary flag, raises a construction
error at construction time. -/
theorem claim_C3_autoincrement_construction (name type_ : Str)
    (foreign : Bool) (raw_source : Option Str) (primary unique nullable : Bool)
    (default : Option PyLit) (on_delete on_update : Option Str)
    (h : isIntegerType type_ = false ∨ primary = false) :
    Column.make name type_ foreign raw_source primary unique nullable default
        on_delete on_update true =
      .error (.valueError (str
        "auto_increment requires a sole integer primary key column")) := by
  rcases h with h | h <;> simp [Column.make, h]

/-- Witness for C3 at the input of the repository test
`test_column_constructor_autoinc_non_integer_raises`. -/
theorem claim_C3_autoincrement_construction_witness :
    (isIntegerType (str "text") = false ∨ (false : Bool) = false) ∧
    Column.make (str "a") (str "text") false none false false true none
        none none true =
      .error (.valueError (str
        "auto_increment requires a sole integer primary key column")) :=
  ⟨Or.inl (by decide),
   claim_C3_autoincrement_construction (str "a") (str "text") false none
     false false true none none none (Or.inl (by decide))⟩

/-- C6: every column with a (truthy) foreign-key target contributes its
exact `foreign key (name) references table (column) on delete ... on
update ...` clause, placed after the whole column-definitions section,
independent of its primary flag. -/
theorem claim_C6_foreign_clause (columns : List Column)
    (tm : Option (List (Str × Str))) (c : Column) (hc : c ∈ columns)
    (hf : pyTruthy c.raw_source = true) :
    ∃ mid post : Str,
      extractorString columns tm =
        columnFragments columns (_get_type_mappings tm)
            ((columns.filter (·.primary)).length) ++
          mid ++ foreignClause c ++ post ∧
      extract_table_creations columns tm =
        slice1m1 (columnFragments columns (_get_type_mappings tm)
            ((columns.filter (·.primary)).length) ++
          mid ++ foreignClause c ++ post) := by
  have hmem : c ∈ foreignsOf columns := by
    simp [foreignsOf, List.mem_filter, hc, hf]
  obtain ⟨l, r, hl⟩ := List.append_of_mem hmem
  refine ⟨add_primary_keys (primariesOf columns
      ((columns.filter (·.primary)).length)) ++
      (l.map foreignClause).flatten, (r.map foreignClause).flatten, ?_, ?_⟩
  · rw [extractorString_eq, hl]
    simp [add_foreign_keys, List.append_assoc]
  · rw [show extract_table_creations columns tm =
      slice1m1 (extractorString columns tm) from rfl, extractorString_eq, hl]
    simp [add_foreign_keys, List.append_assoc]

/-- Witness for C6 at `c6cols`, whose second column `c6col` carries the
foreign-key target `users/id` and is not primary. -/
theorem claim_C6_foreign_clause_witness :
    c6col ∈ c6cols ∧ pyTruthy c6col.raw_source = true ∧
    (∃ mid post : Str,
      extractorString c6cols none =
        columnFragments c6cols (_get_type_mappings none)
            ((c6cols.filter (·.primary)).length) ++
          mid ++ foreignClause c6col ++ post ∧
      extract_table_creations c6cols none =
        slice1m1 (columnFragments c6cols (_get_type_mappings none)
            ((c6cols.filter (·.primary)).length) ++
          mid ++ foreignClause c6col ++ post)) :=
  ⟨by decide, by decide,
   claim_C6_foreign_clause c6cols none c6col (by decide) (by decide)⟩

/-- C7 (code bug): when the inline primary-key set and the table-level
primary-key set agree, the spec says the table-level clause is redundant
and parsing succeeds; the code instead raises the conflict ValueError,
because Phase 2 already fires on the `primary` token of the inline column
fragment, whose following wrapped group is empty. -/
theorem claim_C7_matching_sets_still_raise :
    extract_table c7input =
      .error (.valueError (str
        "Conflicting primary key definitions: inline and table-level differ")) := by
  rfl

/-- C8 (code bug): the parser records a quoted inline default verbatim,
quotes included — the strip condition in `basic_extract` is a tautology,
so the claimed quote-stripping never happens. -/
theorem claim_C8_quotes_not_stripped :
    basic_extract c8input = .ok ([], [(str "a", c8row)]) ∧
    c8row.default ≠ some (str "v") := by
  exact ⟨rfl, by decide⟩

/-- C9: type resolution merges the caller override into the default
mapping with the caller winning on collisions, keys absent from the
override falling back to the default mapping, and names absent from both
passing through verbatim; and the generator resolves every column type
through exactly this merged mapping. -/
theorem claim_C9_type_mapping (ov : List (Str × Str))
    (h : (ov.map (·.1)).Nodup) (t : Str) :
    (resolveType (_get_type_mappings (some ov)) t =
      match alGet? ov t with
      | some v => v
      | none =>
        match alGet? DEFAULT_MAPPINGS t with
        | some v => v
        | none => t) ∧
    ∀ (columns : List Column) (pc : Nat) (s : Str) (p f : List Column),
      (_iterate_etbc_step1 columns s p f (_get_type_mappings (some ov)) pc).1 =
        s ++ columnFragments columns (_get_type_mappings (some ov)) pc := by
  constructor
  · rw [show _get_type_mappings (some ov) =
      ov.foldl (fun d kv => alSet d kv.1 kv.2) DEFAULT_MAPPINGS from rfl]
    rw [resolveType, alGetD, alGet?_merge _ _ _ h]
    rcases hov : alGet? ov t with _ | v <;>
      rcases hdm : alGet? DEFAULT_MAPPINGS t with _ | w <;> simp [hov, hdm]
  · intro columns pc s p f
    rw [_iterate_etbc_step1_eq]

/-- Witness for C9 at the override `c9ov` (which shadows the default
mapping entry for `integer` and adds a fresh key) and the colliding type
name. -/
theorem claim_C9_type_mapping_witness :
    ((c9ov.map (·.1)).Nodup) ∧
    ((resolveType (_get_type_mappings (some c9ov)) (str "integer") =
      match alGet? c9ov (str "integer") with
      | some v => v
      | none =>
        match alGet? DEFAULT_MAPPINGS (str "integer") with
        | some v => v
        | none => str "integer") ∧
    ∀ (columns : List Column) (pc : Nat) (s : Str) (p f : List Column),
      (_iterate_etbc_step1 columns s p f
          (_get_type_mappings (some c9ov)) pc).1 =
        s ++ columnFragments columns (_get_type_mappings (some c9ov)) pc) :=
  ⟨by decide, claim_C9_type_mapping c9ov (by decide) (str "integer")⟩

/-- C10: `basic_extract` is partial — a body whose first comma-delimited
fragment tokenizes to fewer than two tokens (empty body; trailing comma)
makes it index the token list at position 1 and fail with an IndexError
rather than return a result or a defined parse error. -/
theorem claim_C10_short_fragment_index_error :
    basic_extract (str "CREATE TABLE t ()") = .error .indexError ∧
    basic_extract (str "create table t (a text,)") = .error .indexError := by
  exact ⟨rfl, rfl⟩

/-- C2: for every valid descriptor list, the generated DDL contains
exactly one primary-key clause when some column is primary — read off the
shlex tokenization as the number of adjacent `primary key` token pairs —
and none when no column is primary. -/
theorem claim_C2_single_primary_clause (columns : List Column)
    (tm : Option (List (Str × Str)))
    (h : ColsOk (_get_type_mappings tm) columns = true) :
    ∃ ts : List Str,
      shlexTokens (extract_table_creations columns tm) = some ts ∧
      countPK ts = if columns.any (·.primary) then 1 else 0 := by
  have hall : ∀ c ∈ columns, ColOk (_get_type_mappings tm) c = true := by
    simp only [ColsOk, Bool.and_eq_true, List.all_eq_true] at h
    exact h.1
  cases columns with
  | nil => exact ⟨[], rfl, by simp [countPK]⟩
  | cons c0 rest =>
      have hPok : PiecesOk (allPieces (c0 :: rest) (_get_type_mappings tm)
          (((c0 :: rest).filter (·.primary)).length)) = true :=
        allPieces_ok _ _ _ hall
      obtain ⟨t, hhead⟩ := allPieces_sp_head c0 rest (_get_type_mappings tm)
        (((c0 :: rest).filter (·.primary)).length)
      obtain ⟨i, hconcat⟩ := allPieces_concat (c0 :: rest)
        (_get_type_mappings tm) (((c0 :: rest).filter (·.primary)).length)
        (by simp)
      obtain ⟨mid, hmid⟩ := sp_concat_mid hhead hconcat
      have htext : extract_table_creations (c0 :: rest) tm =
          piecesText mid := by
        rw [show extract_table_creations (c0 :: rest) tm =
          slice1m1 (extractorString (c0 :: rest) tm) from rfl,
          allPieces_text, hmid]
        rw [show piecesText (Piece.sp :: (mid ++ [Piece.punct ','])) =
          ' ' :: (piecesText mid ++ [',']) from by
            simp [piecesText, Piece.text]]
        simp [slice1m1, List.dropLast_concat]
      have hPmid : PiecesOk mid = true := by
        rw [hmid] at hPok
        exact PiecesOk_of_append_concat (PiecesOk_tail hPok)
      have htoks : shlexTokens (extract_table_creations (c0 :: rest) tm) =
          some (piecesToks mid) := by
        rw [htext]
        exact lexPieces mid hPmid
      have hcount : countPK (piecesToks mid) =
          if (c0 :: rest).any (·.primary) then 1 else 0 := by
        have hAll := countPK_allPieces (c0 :: rest) (_get_type_mappings tm)
          hall
        rw [hmid] at hAll
        rw [show piecesToks (Piece.sp :: (mid ++ [Piece.punct ','])) =
          piecesToks mid ++ [str ","] from by
            simp [piecesToks, Piece.toks, str]] at hAll
        rw [countPK_concat_ne_key _ _ (by simp [str])] at hAll
        exact hAll
      exact ⟨piecesToks mid, htoks, hcount⟩

/-- Witness for C2 at the valid two-column list `c2cols` with one primary
column. -/
theorem claim_C2_single_primary_clause_witness :
    ColsOk (_get_type_mappings none) c2cols = true ∧
    (∃ ts : List Str,
      shlexTokens (extract_table_creations c2cols none) = some ts ∧
      countPK ts = if c2cols.any (·.primary) then 1 else 0) :=
  ⟨by decide, claim_C2_single_primary_clause c2cols none (by decide)⟩

end LuminaDB
